import Mathlib

/-!
# Reference-counting protocol of `bull::shared_ptr` / `bull::weak_ptr`

Shallow embedding of `kernel/include/core/shared_ptr.hh` and
`kernel/include/util/raii_guard.hh`.

* Pointers are natural numbers, `0` is `nullptr`.
* `std::size_t` counters are natural numbers; `++` and `--` wrap modulo `2 ^ 64`.
* Control blocks live in a store indexed by address.  `delete this` does not erase
  the stored counters (the model keeps reading the stale cells, as the machine
  would); it is recorded in a ghost trace, together with every run of the virtual
  `do_release`.
* A managed object whose type derives from `enable_shared_from_this` carries the
  embedded handle `weak_this_`; the store `weak_this_` of the machine maps the
  address of such an object to `some` handle and every other address to `none`.
* A function that can throw returns `Except`; it throws before it stores anything,
  except in-place construction, which returns the machine next to the result.
* Every constructor is a function of its own.  For `make_shared` the constructor that
  the argument pack selects is part of the model (`Pack`); for other expressions the
  selection among the constructor templates is not modelled.
-/

namespace bull

/-! ## Machine integers -/

/-- Pre-increment `++n` of a `std::size_t`. -/
def size_inc (n : Nat) : Nat := (n + 1) % 2 ^ 64

/-- Pre-decrement `--n` of a `std::size_t`. -/
def size_dec (n : Nat) : Nat := (n + (2 ^ 64 - 1)) % 2 ^ 64

/-! ## Exceptions and the ghost trace -/

/-- Exceptions the code can raise. -/
inductive Exn
  | bad_weak_ptr
  | bad_alloc
  | ctor_failure
  deriving DecidableEq

/-- Ghost events, appended in program order. -/
inductive Event
  | do_release (cb : Nat)
  | delete_this (cb : Nat)
  | malloc (mem : Nat)
  | free (mem : Nat)
  deriving DecidableEq

/-! ## Data -/

/-- Class `control_block`: the two counters (both initialised to 1) and the address
of the managed object (`&obj_` for `control_block_impl`, `ptr_` for
`raw_ptr_guarder`). -/
structure control_block where
  use_cnt_ : Nat := 1
  weak_cnt_ : Nat := 1
  object : Nat := 0
  deriving DecidableEq

/-- Class `weak_ptr<T>`. -/
structure weak_ptr where
  cb_ : Nat := 0
  ptr_ : Nat := 0
  deriving DecidableEq

/-- Class `shared_ptr<T>`. -/
structure shared_ptr where
  cb_ : Nat := 0
  ptr_ : Nat := 0
  deriving DecidableEq

/-- Machine state: control-block storage, the embedded `weak_this_` of every object
with the self-reference capability, and the ghost trace. -/
structure Machine where
  cb : Nat → control_block
  weak_this_ : Nat → Option weak_ptr
  trace : List Event

namespace Machine

/-- Append a ghost event. -/
def log (m : Machine) (e : Event) : Machine :=
  { m with trace := m.trace ++ [e] }

/-- Store to `use_cnt_` of the block at `a`. -/
def set_use (m : Machine) (a v : Nat) : Machine :=
  { m with cb := Function.update m.cb a { m.cb a with use_cnt_ := v } }

/-- Store to `weak_cnt_` of the block at `a`. -/
def set_weak (m : Machine) (a v : Nat) : Machine :=
  { m with cb := Function.update m.cb a { m.cb a with weak_cnt_ := v } }

/-- Number of `delete this` executed on the block at `a`. -/
def deletes (m : Machine) (a : Nat) : Nat := m.trace.count (Event.delete_this a)

/-- Number of runs of `do_release` on the block at `a`. -/
def releases (m : Machine) (a : Nat) : Nat := m.trace.count (Event.do_release a)

end Machine

/-! ## `control_block` -/

namespace control_block

/-- Member `use_add`. -/
def use_add (m : Machine) (a : Nat) : Except Exn Machine :=
  if (m.cb a).use_cnt_ = 0 then
    Except.error Exn.bad_weak_ptr
  else
    Except.ok (m.set_use a (size_inc (m.cb a).use_cnt_))

/-- Member `weak_add`. -/
def weak_add (m : Machine) (a : Nat) : Machine :=
  m.set_weak a (size_inc (m.cb a).weak_cnt_)

/-- Member `weak_release`. -/
def weak_release (m : Machine) (a : Nat) : Machine :=
  let m1 := m.set_weak a (size_dec (m.cb a).weak_cnt_)
  if (m1.cb a).weak_cnt_ = 0 ∧ (m1.cb a).use_cnt_ = 0 then
    m1.log (Event.delete_this a)
  else
    m1

/-- Member `use_count`. -/
def use_count (m : Machine) (a : Nat) : Nat := (m.cb a).use_cnt_

end control_block

namespace weak_ptr

/-- Member `weak_ptr::reset`, returning the machine and the handle afterwards. -/
def reset (m : Machine) (w : weak_ptr) : Machine × weak_ptr :=
  if w.cb_ ≠ 0 then
    (control_block.weak_release m w.cb_, { cb_ := 0, ptr_ := 0 })
  else
    (m, w)

/-- Member `weak_ptr::use_count`. -/
def use_count (m : Machine) (w : weak_ptr) : Nat :=
  if w.cb_ ≠ 0 then control_block.use_count m w.cb_ else 0

/-- Member `weak_ptr::assign` (late bind); only the handle changes. -/
def assign (m : Machine) (w : weak_ptr) (ptr cb : Nat) : weak_ptr :=
  if use_count m w = 0 then { cb_ := cb, ptr_ := ptr } else w

/-- Copy constructor `weak_ptr(const weak_ptr&)`. -/
def copy (m : Machine) (other : weak_ptr) : Machine × weak_ptr :=
  let self : weak_ptr := { cb_ := other.cb_, ptr_ := other.ptr_ }
  if self.cb_ ≠ 0 then (control_block.weak_add m self.cb_, self) else (m, self)

/-- Move constructor: the new handle and the source afterwards. -/
def move (other : weak_ptr) : weak_ptr × weak_ptr :=
  ({ cb_ := other.cb_, ptr_ := other.ptr_ }, { other with cb_ := 0, ptr_ := 0 })

end weak_ptr

namespace control_block

/-- Virtual `do_release` (`obj_.~T()` for `control_block_impl`, `delete ptr_` for
`raw_ptr_guarder`): the managed object's destructor runs.  For an object with the
self-reference capability it destroys the member `weak_this_`, whose destructor is
`weak_ptr::reset`. -/
def do_release (m : Machine) (a : Nat) : Machine :=
  let m1 := m.log (Event.do_release a)
  let p := (m1.cb a).object
  match m1.weak_this_ p with
  | none => m1
  | some w =>
    let r := weak_ptr.reset m1 w
    { r.1 with weak_this_ := Function.update r.1.weak_this_ p (some r.2) }

/-- Member `use_release`. -/
def use_release (m : Machine) (a : Nat) : Machine :=
  let m1 := m.set_use a (size_dec (m.cb a).use_cnt_)
  if (m1.cb a).use_cnt_ = 0 then
    let m2 := do_release m1 a
    let m3 := m2.set_weak a (size_dec (m2.cb a).weak_cnt_)
    if (m3.cb a).weak_cnt_ = 0 then
      m3.log (Event.delete_this a)
    else
      m3
  else
    m1

end control_block

/-! ## `raii_guard` -/

/-- Class `raii_guard<Func>`. -/
structure raii_guard (Func : Type) where
  func_ : Func
  active_ : Bool

namespace raii_guard

/-- Function `make_defer` (constructor `raii_guard(Func)`). -/
def make_defer {Func : Type} (func : Func) : raii_guard Func :=
  { func_ := func, active_ := true }

/-- Member `dismiss`. -/
def dismiss {Func : Type} (g : raii_guard Func) : raii_guard Func :=
  { g with active_ := false }

/-- Move constructor: the new guard and the source afterwards. -/
def move {Func : Type} (other : raii_guard Func) : raii_guard Func × raii_guard Func :=
  ({ func_ := other.func_, active_ := other.active_ }, { other with active_ := false })

/-- Destructor: runs `func_` on the state when still active; `call` says how a
callable acts on the state. -/
def destroy {Func S : Type} (call : Func → S → S) (g : raii_guard Func) (s : S) : S :=
  if g.active_ then call g.func_ s else s

end raii_guard

/-! ## `shared_ptr` -/

/-- The address `&obj_` returned by `control_block_impl::object` for the block
placed at `mem`: the object follows the vtable pointer and the two counters. -/
def control_block_impl.object (mem : Nat) : Nat := mem + 24

/-- What the constructor of the managed object `T` makes of the embedded handle
`weak_this_` of the new object: `T` has no `enable_shared_from_this` base; the base is
default-constructed; or the base is copy- or move-constructed from that of the object
at `src`, as the implicit copy and move constructors of `T` do, which copies or moves
the member `weak_this_`. -/
inductive Embedded
  | absent
  | fresh
  | copied (src : Nat)
  | moved (src : Nat)
  deriving DecidableEq

/-- Constructor `control_block_impl(Args&&...)` for the block placed at `mem`, when the
constructor of the managed object returns normally: the counters are set by their
member initialisers, then `obj_` is constructed. -/
def control_block_impl.construct (m : Machine) (mem : Nat) (init : Embedded) : Machine :=
  let obj := control_block_impl.object mem
  let m1 : Machine :=
    { m with cb := Function.update m.cb mem { use_cnt_ := 1, weak_cnt_ := 1, object := obj } }
  match init with
  | Embedded.absent => { m1 with weak_this_ := Function.update m1.weak_this_ obj none }
  | Embedded.fresh =>
    { m1 with weak_this_ := Function.update m1.weak_this_ obj (some { cb_ := 0, ptr_ := 0 }) }
  | Embedded.copied src =>
    match m1.weak_this_ src with
    | none => { m1 with weak_this_ := Function.update m1.weak_this_ obj none }
    | some w =>
      { (weak_ptr.copy m1 w).1 with
        weak_this_ := Function.update (weak_ptr.copy m1 w).1.weak_this_ obj
          (some (weak_ptr.copy m1 w).2) }
  | Embedded.moved src =>
    match m1.weak_this_ src with
    | none => { m1 with weak_this_ := Function.update m1.weak_this_ obj none }
    | some w =>
      { m1 with
        weak_this_ := Function.update
          (Function.update m1.weak_this_ src (some (weak_ptr.move w).2)) obj
          (some (weak_ptr.move w).1) }

namespace shared_ptr

/-- Private member `enable_shared_from_this_with`: the empty overload is taken when
the pointee's type has no `enable_shared_from_this` base; otherwise `weak_assign`
forwards to `weak_ptr::assign` on the embedded handle. -/
def enable_shared_from_this_with (m : Machine) (cb ptr : Nat) : Machine :=
  match m.weak_this_ ptr with
  | none => m
  | some w =>
    if ptr ≠ 0 then
      { m with weak_this_ := Function.update m.weak_this_ ptr (some (weak_ptr.assign m w ptr cb)) }
    else
      m

/-- Private member `do_add_use`. -/
def do_add_use (m : Machine) (self : shared_ptr) : Except Exn Machine :=
  if self.cb_ ≠ 0 then control_block.use_add m self.cb_ else Except.ok m

/-- Default constructor. -/
def empty : shared_ptr := { cb_ := 0, ptr_ := 0 }

/-- Constructor `shared_ptr(U* ptr)`; `blk` is the address `new raw_ptr_guarder(ptr)`
returns. -/
def adopt (m : Machine) (blk ptr : Nat) : Machine × shared_ptr :=
  if ptr ≠ 0 then
    let m1 : Machine :=
      { m with cb := Function.update m.cb blk { use_cnt_ := 1, weak_cnt_ := 1, object := ptr } }
    let self : shared_ptr := { cb_ := blk, ptr_ := ptr }
    (enable_shared_from_this_with m1 self.cb_ self.ptr_, self)
  else
    (m, empty)

/-- Constructor `shared_ptr(Args&&...)` (in-place construction).  `mem` is what
`std::malloc` returns, `ctor_ok` says whether the constructor of the managed object
returns normally, `init` what it makes of the embedded handle.  When the constructor
throws, what was constructed in the allocation is gone with the allocation: the store
keeps its old content. -/
def emplace (m : Machine) (mem : Nat) (ctor_ok : Bool) (init : Embedded) :
    Machine × Except Exn shared_ptr :=
  if mem = 0 then
    (m, Except.error Exn.bad_alloc)
  else
    let m0 := m.log (Event.malloc mem)
    let guard := raii_guard.make_defer mem
    if ctor_ok then
      let m1 := control_block_impl.construct m0 mem init
      let guard := guard.dismiss
      let self : shared_ptr := { cb_ := mem, ptr_ := control_block_impl.object mem }
      let m2 := enable_shared_from_this_with m1 self.cb_ self.ptr_
      (raii_guard.destroy (fun p s => Machine.log s (Event.free p)) guard m2, Except.ok self)
    else
      (raii_guard.destroy (fun p s => Machine.log s (Event.free p)) guard m0,
        Except.error Exn.ctor_failure)

/-- Copy constructor `shared_ptr(const shared_ptr<U>&)`. -/
def copy (m : Machine) (other : shared_ptr) : Except Exn (Machine × shared_ptr) :=
  let self : shared_ptr := { cb_ := other.cb_, ptr_ := other.ptr_ }
  match do_add_use m self with
  | Except.error e => Except.error e
  | Except.ok m1 => Except.ok (m1, self)

/-- Move constructor: the new handle and the source afterwards. -/
def move (other : shared_ptr) : shared_ptr × shared_ptr :=
  ({ cb_ := other.cb_, ptr_ := other.ptr_ }, { other with cb_ := 0, ptr_ := 0 })

/-- Constructor `shared_ptr(const weak_ptr<T>&)`. -/
def from_weak (m : Machine) (other : weak_ptr) : Except Exn (Machine × shared_ptr) :=
  let self : shared_ptr := { cb_ := other.cb_, ptr_ := other.ptr_ }
  match do_add_use m self with
  | Except.error e => Except.error e
  | Except.ok m1 => Except.ok (m1, self)

/-- Member `reset`: the machine and the handle afterwards. -/
def reset (m : Machine) (self : shared_ptr) : Machine × shared_ptr :=
  if self.cb_ ≠ 0 then
    (control_block.use_release m self.cb_, { cb_ := 0, ptr_ := 0 })
  else
    (m, self)

/-- Destructor `~shared_ptr`. -/
def destroy (m : Machine) (self : shared_ptr) : Machine := (reset m self).1

/-- Member `get`. -/
def get (self : shared_ptr) : Nat := self.ptr_

/-- Member `use_count`. -/
def use_count (m : Machine) (self : shared_ptr) : Nat :=
  if self.cb_ ≠ 0 then control_block.use_count m self.cb_ else 0

/-- Conversion `operator bool`. -/
def to_bool (self : shared_ptr) : Bool := decide (self.cb_ ≠ 0)

end shared_ptr

/-- The argument pack of `make_shared<T>(args...)`, which returns
`shared_ptr<T>(args...)`: no argument, for which the non-template default constructor
is selected; one pointer convertible to `T*`, for which `shared_ptr(U*)` is selected
(`blk` is the address its `new` returns); or arguments of a constructor of `T`, for
which the in-place constructor is selected.  A pack of one handle that selects a
handle constructor is that constructor (`copy`, `move`, `from_weak`). -/
inductive Pack
  | empty
  | pointer (blk ptr : Nat)
  | values (mem : Nat) (ctor_ok : Bool) (init : Embedded)
  deriving DecidableEq

/-- Function `make_shared`. -/
def make_shared (m : Machine) : Pack → Machine × Except Exn shared_ptr
  | Pack.empty => (m, Except.ok shared_ptr.empty)
  | Pack.pointer blk ptr =>
    ((shared_ptr.adopt m blk ptr).1, Except.ok (shared_ptr.adopt m blk ptr).2)
  | Pack.values mem ctor_ok init => shared_ptr.emplace m mem ctor_ok init

/-! ## `weak_ptr` -/

namespace weak_ptr

/-- Constructor `weak_ptr(const shared_ptr<T>&)`. -/
def from_shared (m : Machine) (shared : shared_ptr) : Machine × weak_ptr :=
  let self : weak_ptr := { cb_ := shared.cb_, ptr_ := shared.ptr_ }
  if self.cb_ ≠ 0 then (control_block.weak_add m self.cb_, self) else (m, self)

/-- Destructor `~weak_ptr`. -/
def destroy (m : Machine) (self : weak_ptr) : Machine := (reset m self).1

/-- Member `lock`.  The function is `noexcept`; an exception escaping the
constructor it calls is kept visible as an error result. -/
def lock (m : Machine) (self : weak_ptr) : Except Exn (Machine × shared_ptr) :=
  if self.cb_ ≠ 0 ∧ control_block.use_count m self.cb_ > 0 then
    shared_ptr.from_weak m self
  else
    Except.ok (m, shared_ptr.empty)

end weak_ptr

/-! ## Programs over handles

A world is the machine together with the handle variables currently alive.  An
operation names its operands by position; an operation whose operand does not exist
does nothing.  An operation that throws constructs no handle. -/

/-- Machine plus the live shared and weak handle variables. -/
structure World where
  m : Machine
  shared : List shared_ptr
  weak : List weak_ptr

/-- Public handle operations. -/
inductive Op
  | shared_copy (i : Nat)
  | shared_move (i : Nat)
  | shared_from_weak (j : Nat)
  | shared_assign (i j : Nat)
  | shared_move_assign (i j : Nat)
  | shared_reset (i : Nat)
  | shared_destroy (i : Nat)
  | weak_from_shared (i : Nat)
  | weak_copy (j : Nat)
  | weak_move (j : Nat)
  | weak_assign (i j : Nat)
  | weak_move_assign (i j : Nat)
  | weak_reset (j : Nat)
  | weak_destroy (j : Nat)
  | lock (j : Nat)
  deriving DecidableEq

/-- One operation.  `shared_assign i j` is `shared[i] = shared[j]` and
`shared_move_assign i j` is `shared[i] = std::move(shared[j])` (destructor of the
target, then construction in place; nothing happens when both are the same
variable); likewise for weak handles. -/
def step (w : World) : Op → World
  | Op.shared_copy i =>
    match w.shared[i]? with
    | none => w
    | some h =>
      match shared_ptr.copy w.m h with
      | Except.error _ => w
      | Except.ok r => { w with m := r.1, shared := w.shared ++ [r.2] }
  | Op.shared_move i =>
    match w.shared[i]? with
    | none => w
    | some h => { w with shared := w.shared.set i (shared_ptr.move h).2 ++ [(shared_ptr.move h).1] }
  | Op.shared_from_weak j =>
    match w.weak[j]? with
    | none => w
    | some x =>
      match shared_ptr.from_weak w.m x with
      | Except.error _ => w
      | Except.ok r => { w with m := r.1, shared := w.shared ++ [r.2] }
  | Op.shared_assign i j =>
    match w.shared[i]?, w.shared[j]? with
    | some h, some o =>
      if i = j then w
      else
        match shared_ptr.copy (shared_ptr.destroy w.m h) o with
        | Except.error _ =>
          { w with m := shared_ptr.destroy w.m h, shared := w.shared.set i (shared_ptr.reset w.m h).2 }
        | Except.ok r => { w with m := r.1, shared := w.shared.set i r.2 }
    | _, _ => w
  | Op.shared_move_assign i j =>
    match w.shared[i]?, w.shared[j]? with
    | some h, some o =>
      if i = j then w
      else
        { w with
          m := shared_ptr.destroy w.m h
          shared := (w.shared.set i (shared_ptr.move o).1).set j (shared_ptr.move o).2 }
    | _, _ => w
  | Op.shared_reset i =>
    match w.shared[i]? with
    | none => w
    | some h =>
      { w with m := (shared_ptr.reset w.m h).1, shared := w.shared.set i (shared_ptr.reset w.m h).2 }
  | Op.shared_destroy i =>
    match w.shared[i]? with
    | none => w
    | some h => { w with m := shared_ptr.destroy w.m h, shared := w.shared.eraseIdx i }
  | Op.weak_from_shared i =>
    match w.shared[i]? with
    | none => w
    | some h =>
      { w with m := (weak_ptr.from_shared w.m h).1, weak := w.weak ++ [(weak_ptr.from_shared w.m h).2] }
  | Op.weak_copy j =>
    match w.weak[j]? with
    | none => w
    | some x => { w with m := (weak_ptr.copy w.m x).1, weak := w.weak ++ [(weak_ptr.copy w.m x).2] }
  | Op.weak_move j =>
    match w.weak[j]? with
    | none => w
    | some x => { w with weak := w.weak.set j (weak_ptr.move x).2 ++ [(weak_ptr.move x).1] }
  | Op.weak_assign i j =>
    match w.weak[i]?, w.weak[j]? with
    | some x, some o =>
      if i = j then w
      else
        { w with
          m := (weak_ptr.copy (weak_ptr.destroy w.m x) o).1
          weak := w.weak.set i (weak_ptr.copy (weak_ptr.destroy w.m x) o).2 }
    | _, _ => w
  | Op.weak_move_assign i j =>
    match w.weak[i]?, w.weak[j]? with
    | some x, some o =>
      if i = j then w
      else
        { w with
          m := weak_ptr.destroy w.m x
          weak := (w.weak.set i (weak_ptr.move o).1).set j (weak_ptr.move o).2 }
    | _, _ => w
  | Op.weak_reset j =>
    match w.weak[j]? with
    | none => w
    | some x =>
      { w with m := (weak_ptr.reset w.m x).1, weak := w.weak.set j (weak_ptr.reset w.m x).2 }
  | Op.weak_destroy j =>
    match w.weak[j]? with
    | none => w
    | some x => { w with m := weak_ptr.destroy w.m x, weak := w.weak.eraseIdx j }
  | Op.lock j =>
    match w.weak[j]? with
    | none => w
    | some x =>
      match weak_ptr.lock w.m x with
      | Except.error _ => w
      | Except.ok r => { w with m := r.1, shared := w.shared ++ [r.2] }

/-- A sequence of operations, left to right. -/
def run (w : World) (ops : List Op) : World := ops.foldl step w

/-- Whether a weak handle refers to a control block (`cb_` is not null). -/
def weak_ptr.bound (self : weak_ptr) : Bool := decide (self.cb_ ≠ 0)

/-- Number of non-empty shared handles. -/
def World.owners (w : World) : Nat := w.shared.countP shared_ptr.to_bool

/-- Number of non-empty weak handles. -/
def World.observers (w : World) : Nat := w.weak.countP weak_ptr.bound

/-- The world right after a shared handle took ownership of a new object `p` without
the self-reference capability through the new control block `a`: counters at 1, the
creating handle is the only handle, and no event of the block is in the trace. -/
def World.Fresh (a p : Nat) (w : World) : Prop :=
  a ≠ 0 ∧ w.shared = [{ cb_ := a, ptr_ := p }] ∧ w.weak = [] ∧
  (w.m.cb a).use_cnt_ = 1 ∧ (w.m.cb a).weak_cnt_ = 1 ∧ (w.m.cb a).object = p ∧
  w.m.weak_this_ p = none ∧ w.m.releases a = 0 ∧ w.m.deletes a = 0

/-- The block at `a` accounts for `S` strong and `W` weak references: the managed
object has no embedded handle, `use_cnt_` is `S`, `weak_cnt_` is `W` plus the implicit
unit held while `S` is positive, `do_release` ran once exactly when `S` is 0, and
`delete this` ran once exactly when both are 0. -/
def Counted (m : Machine) (a S W : Nat) : Prop :=
  m.weak_this_ (m.cb a).object = none ∧
  (m.cb a).use_cnt_ = S ∧
  (m.cb a).weak_cnt_ = W + (if 0 < S then 1 else 0) ∧
  m.releases a = (if S = 0 then 1 else 0) ∧
  m.deletes a = (if S = 0 ∧ W = 0 then 1 else 0)

/-- Invariant of the worlds reachable from a fresh one: every handle is empty or is
the pair of the block `a` and its object `p`, and the block accounts for the non-empty
handles. -/
def World.Inv (a p : Nat) (w : World) : Prop :=
  a ≠ 0 ∧
  (∀ h ∈ w.shared, h = { cb_ := a, ptr_ := p } ∨ h = { cb_ := 0, ptr_ := 0 }) ∧
  (∀ x ∈ w.weak, x = { cb_ := a, ptr_ := p } ∨ x = { cb_ := 0, ptr_ := 0 }) ∧
  Counted w.m a w.owners w.observers

/-- What one operation guarantees from a world `w` satisfying the invariant: the
invariant again, at most one more handle variable, no new owner once there is none,
and at most one owner less. -/
def StepOk (a p : Nat) (w v : World) : Prop :=
  World.Inv a p v ∧
  v.shared.length + v.weak.length ≤ w.shared.length + w.weak.length + 1 ∧
  (w.owners = 0 → v.owners = 0) ∧
  w.owners ≤ v.owners + 1

/-! ## Remaining surface: self-reference, comparisons, casts -/

/-- Member `enable_shared_from_this::shared_from_this`, on the embedded handle
`weak_this_` of the object: `weak_this_.lock()`. -/
def enable_shared_from_this.shared_from_this (m : Machine) (weak_this_ : weak_ptr) :
    Except Exn (Machine × shared_ptr) :=
  weak_ptr.lock m weak_this_

namespace shared_ptr

/-- Comparison `operator==` of two shared handles. -/
def eq (lhs rhs : shared_ptr) : Bool := decide (lhs.get = rhs.get)

/-- Comparison `operator!=` of two shared handles. -/
def ne (lhs rhs : shared_ptr) : Bool := decide (lhs.get ≠ rhs.get)

/-- Comparison `operator==` with `nullptr`: `!lhs.get()`. -/
def eq_null (lhs : shared_ptr) : Bool := !decide (lhs.get ≠ 0)

/-- Comparison `operator!=` with `nullptr`: `static_cast<bool>(lhs.get())`. -/
def ne_null (lhs : shared_ptr) : Bool := decide (lhs.get ≠ 0)

end shared_ptr

/-- Function `dynamic_pointer_cast`.  `dst` (the local `to`) is what `dynamic_cast` returns for
`from.get()` (null when the runtime type check fails).  The two-argument constructor
the function calls on success is not declared in the source; it is the parameter
`aliasing`. -/
def dynamic_pointer_cast (aliasing : Machine → shared_ptr → Nat → Except Exn (Machine × shared_ptr))
    (m : Machine) (frm : shared_ptr) (dst : Nat) : Except Exn (Machine × shared_ptr) :=
  if dst ≠ 0 then aliasing m frm dst else Except.ok (m, shared_ptr.empty)

/-- Function `static_pointer_cast`, with the same parameter; `dst` is what `static_cast`
returns for `from.get()`. -/
def static_pointer_cast (aliasing : Machine → shared_ptr → Nat → Except Exn (Machine × shared_ptr))
    (m : Machine) (frm : shared_ptr) (dst : Nat) : Except Exn (Machine × shared_ptr) :=
  aliasing m frm dst

/-! ## `raii_guard`: invocations and move assignment -/

namespace raii_guard

/-- The call `func_()`, recorded in the ghost log of invoked callables. -/
def invoke {Func : Type} (f : Func) (log : List Func) : List Func := log ++ [f]

/-- Move assignment `operator=(raii_guard&&)`: the state, `*this` and `other`
afterwards.  `same` says whether `this == &other`. -/
def move_assign {Func S : Type} (call : Func → S → S) (same : Bool)
    (self other : raii_guard Func) (s : S) : S × raii_guard Func × raii_guard Func :=
  if same then
    (s, self, other)
  else
    (destroy call self s, (move other).1, (move other).2)

/-- Operations a guard undergoes while it keeps its callable: a call of `dismiss`, or
being the source of a move construction or move assignment. -/
inductive Change
  | dismiss
  | moved_from
  deriving DecidableEq

/-- The guard after one such operation. -/
def change {Func : Type} (g : raii_guard Func) : Change → raii_guard Func
  | Change.dismiss => g.dismiss
  | Change.moved_from => (move g).2

end raii_guard

/-! ## Worlds reachable through the public operations, creation included -/

/-- Worlds built from no handle at all by default construction, adoption (the
address `new` returns is not null), `make_shared` with any pack (successful or not)
and the handle operations. -/
inductive World.Reach : World → Prop
  | start (m : Machine) : World.Reach ⟨m, [], []⟩
  | empty {w : World} : World.Reach w → World.Reach ⟨w.m, w.shared ++ [shared_ptr.empty], w.weak⟩
  | weak_empty {w : World} :
    World.Reach w → World.Reach ⟨w.m, w.shared, w.weak ++ [{ cb_ := 0, ptr_ := 0 }]⟩
  | adopt {w : World} (blk ptr : Nat) :
    blk ≠ 0 → World.Reach w →
      World.Reach ⟨(shared_ptr.adopt w.m blk ptr).1,
        w.shared ++ [(shared_ptr.adopt w.m blk ptr).2], w.weak⟩
  | make {w : World} (pack : Pack) (h : shared_ptr) :
    (∀ blk ptr, pack = Pack.pointer blk ptr → blk ≠ 0) →
    World.Reach w → (make_shared w.m pack).2 = Except.ok h →
      World.Reach ⟨(make_shared w.m pack).1, w.shared ++ [h], w.weak⟩
  | make_failed {w : World} (pack : Pack) (e : Exn) :
    World.Reach w → (make_shared w.m pack).2 = Except.error e →
      World.Reach ⟨(make_shared w.m pack).1, w.shared, w.weak⟩
  | op {w : World} (o : Op) : World.Reach w → World.Reach (step w o)

/-! ## A concrete machine for examples -/

/-- Machine with every block at its freshly constructed counters, no object with
the self-reference capability, and an empty trace. -/
def Machine.init : Machine :=
  { cb := fun _ => { use_cnt_ := 1, weak_cnt_ := 1, object := 0 }
    weak_this_ := fun _ => none
    trace := [] }

/-- The world after `make_shared` with one constructor argument constructed an object
without the self-reference capability in the block at 1000: the returned handle `A` is
the only variable. -/
def World.sample : World :=
  { m := (make_shared Machine.init (Pack.values 1000 true Embedded.absent)).1
    shared := [{ cb_ := 1000, ptr_ := 1024 }]
    weak := [] }

/-- The machine after `make_shared<T>(1)` constructed an object with the
self-reference capability (embedded handle default-constructed) in the block at 1000;
the returned handle is `{1000, 1024}`. -/
def Machine.sample_esft : Machine := (make_shared Machine.init (Pack.values 1000 true Embedded.fresh)).1

/-- The machine after `A` was constructed in place (object without the self-reference
capability), the weak handle `W = {1000, 1024}` was constructed from `A`, and `A` was
reset: `W` is bound to a block whose `use_cnt_` has dropped to 0. -/
def Machine.sample_expired : Machine :=
  (run World.sample [Op.weak_from_shared 0, Op.shared_reset 0]).m

/-- The machine after `a = make_shared<T>(1)` constructed an object with the
self-reference capability in the block at 1000 and `b = make_shared<T>(*a)` constructed
a copy of that object in the block at 2000; `b` is the handle `{2000, 2024}`. -/
def Machine.sample_copied : Machine :=
  (make_shared Machine.sample_esft (Pack.values 2000 true (Embedded.copied 1024))).1

/-! # Theorems -/

section basic

@[simp] theorem size_dec_one : size_dec 1 = 0 := by decide

@[simp] theorem size_dec_zero : size_dec 0 = 2 ^ 64 - 1 := by decide

theorem size_inc_of_lt {n : Nat} (h : n < 2 ^ 64 - 1) : size_inc n = n + 1 := by
  unfold size_inc
  exact Nat.mod_eq_of_lt (by omega)

theorem size_dec_of_pos {n : Nat} (h0 : 0 < n) (h : n < 2 ^ 64) : size_dec n = n - 1 := by
  unfold size_dec
  have : n + (2 ^ 64 - 1) = (n - 1) + 2 ^ 64 := by omega
  rw [this, Nat.add_mod_right]
  exact Nat.mod_eq_of_lt (by omega)

theorem size_dec_eq_zero_iff {n : Nat} (h : n < 2 ^ 64) : size_dec n = 0 ↔ n = 1 := by
  unfold size_dec
  constructor
  · intro h1
    by_contra hne
    rcases Nat.eq_zero_or_pos n with h0 | h0
    · subst h0
      revert h1
      decide
    · have h2 : n + (2 ^ 64 - 1) = (n - 1) + 2 ^ 64 := by omega
      rw [h2, Nat.add_mod_right, Nat.mod_eq_of_lt (by omega)] at h1
      omega
  · intro h1
    subst h1
    decide

@[simp] theorem Machine.log_cb (m : Machine) (e : Event) : (m.log e).cb = m.cb := rfl

@[simp] theorem Machine.log_weak_this (m : Machine) (e : Event) :
    (m.log e).weak_this_ = m.weak_this_ := rfl

@[simp] theorem Machine.log_trace (m : Machine) (e : Event) :
    (m.log e).trace = m.trace ++ [e] := rfl

@[simp] theorem Machine.set_use_trace (m : Machine) (a v : Nat) :
    (m.set_use a v).trace = m.trace := rfl

@[simp] theorem Machine.set_use_weak_this (m : Machine) (a v : Nat) :
    (m.set_use a v).weak_this_ = m.weak_this_ := rfl

@[simp] theorem Machine.set_use_cb_same (m : Machine) (a v : Nat) :
    (m.set_use a v).cb a = { m.cb a with use_cnt_ := v } := by
  simp [Machine.set_use]

theorem Machine.set_use_cb_other (m : Machine) {a b : Nat} (v : Nat) (h : b ≠ a) :
    (m.set_use a v).cb b = m.cb b := by
  simp [Machine.set_use, Function.update_noteq h]

@[simp] theorem Machine.set_weak_trace (m : Machine) (a v : Nat) :
    (m.set_weak a v).trace = m.trace := rfl

@[simp] theorem Machine.set_weak_weak_this (m : Machine) (a v : Nat) :
    (m.set_weak a v).weak_this_ = m.weak_this_ := rfl

@[simp] theorem Machine.set_weak_cb_same (m : Machine) (a v : Nat) :
    (m.set_weak a v).cb a = { m.cb a with weak_cnt_ := v } := by
  simp [Machine.set_weak]

theorem Machine.set_weak_cb_other (m : Machine) {a b : Nat} (v : Nat) (h : b ≠ a) :
    (m.set_weak a v).cb b = m.cb b := by
  simp [Machine.set_weak, Function.update_noteq h]

/-- The counter `use_cnt_` of any block is untouched by `weak_release`. -/
theorem weak_release_use (m : Machine) (a b : Nat) :
    ((control_block.weak_release m a).cb b).use_cnt_ = (m.cb b).use_cnt_ := by
  unfold control_block.weak_release
  by_cases hb : b = a
  · subst hb
    simp only [Machine.set_weak_cb_same]
    split <;> simp
  · simp only [Machine.set_weak_cb_same]
    split <;> simp [Machine.set_weak_cb_other _ _ hb]

/-- The new `weak_cnt_` after `weak_release`. -/
theorem weak_release_weak (m : Machine) (a : Nat) :
    ((control_block.weak_release m a).cb a).weak_cnt_ = size_dec (m.cb a).weak_cnt_ := by
  unfold control_block.weak_release
  simp only [Machine.set_weak_cb_same]
  split <;> simp

/-- The managed object of the block is untouched by `weak_release`. -/
theorem weak_release_object (m : Machine) (a : Nat) :
    ((control_block.weak_release m a).cb a).object = (m.cb a).object := by
  unfold control_block.weak_release
  simp only [Machine.set_weak_cb_same]
  split <;> simp

/-- The trace after `weak_release`. -/
theorem weak_release_trace (m : Machine) (a : Nat) :
    (control_block.weak_release m a).trace =
      m.trace ++ (if size_dec (m.cb a).weak_cnt_ = 0 ∧ (m.cb a).use_cnt_ = 0
        then [Event.delete_this a] else []) := by
  unfold control_block.weak_release
  simp only [Machine.set_weak_cb_same]
  split <;> simp

/-- The embedded handles are untouched by `weak_release`. -/
theorem weak_release_weak_this (m : Machine) (a : Nat) :
    (control_block.weak_release m a).weak_this_ = m.weak_this_ := by
  unfold control_block.weak_release
  simp only [Machine.set_weak_cb_same]
  split <;> simp

/-- Other blocks are untouched by `weak_release`. -/
theorem weak_release_cb_other (m : Machine) {a b : Nat} (hb : b ≠ a) :
    (control_block.weak_release m a).cb b = m.cb b := by
  unfold control_block.weak_release
  simp only [Machine.set_weak_cb_same]
  split <;> simp [Machine.set_weak_cb_other _ _ hb]

/-- No `do_release` event is logged by `weak_release`. -/
theorem weak_release_releases (m : Machine) (a b : Nat) :
    (control_block.weak_release m a).releases b = m.releases b := by
  unfold control_block.weak_release Machine.releases
  simp only [Machine.set_weak_cb_same]
  split <;> simp

/-- The trace only grows under `weak_release`. -/
theorem weak_release_trace_prefix (m : Machine) (a : Nat) :
    m.trace <+: (control_block.weak_release m a).trace := by
  unfold control_block.weak_release
  simp only [Machine.set_weak_cb_same]
  split <;> simp

/-- Effect of `do_release` when the managed object has no embedded handle. -/
theorem do_release_plain (m : Machine) (a : Nat) (h : m.weak_this_ (m.cb a).object = none) :
    control_block.do_release m a = m.log (Event.do_release a) := by
  unfold control_block.do_release
  simp [h]

/-- The counter `use_cnt_` of any block is untouched by `do_release`. -/
theorem do_release_use (m : Machine) (a b : Nat) :
    ((control_block.do_release m a).cb b).use_cnt_ = (m.cb b).use_cnt_ := by
  unfold control_block.do_release
  simp only [Machine.log_cb, Machine.log_weak_this]
  split
  · simp
  · rename_i w hw
    simp only [weak_ptr.reset]
    split
    · simp [weak_release_use]
    · simp

/-- Exactly one `do_release` event for the block is logged by `do_release`. -/
theorem do_release_releases (m : Machine) (a : Nat) :
    (control_block.do_release m a).releases a = m.releases a + 1 := by
  unfold control_block.do_release
  simp only [Machine.log_cb, Machine.log_weak_this]
  split
  · simp [Machine.releases]
  · simp only [weak_ptr.reset]
    split
    · have := weak_release_releases (m.log (Event.do_release a)) ‹weak_ptr›.cb_ a
      simp only [Machine.releases] at this ⊢
      simp [this]
    · simp [Machine.releases]

/-- The trace after `do_release` starts with the old trace followed by the
`do_release` event. -/
theorem do_release_trace_prefix (m : Machine) (a : Nat) :
    (m.trace ++ [Event.do_release a]) <+: (control_block.do_release m a).trace := by
  unfold control_block.do_release
  simp only [Machine.log_cb, Machine.log_weak_this]
  split
  · simp
  · simp only [weak_ptr.reset]
    split
    · exact weak_release_trace_prefix (m.log (Event.do_release a)) _
    · simp

end basic

section control_block_contracts

/-- C1: `control_block::use_release` decrements `use_cnt_`.  When the new value is 0
it runs `do_release` exactly once (the event directly follows the old trace), then
decrements the `weak_cnt_` left by `do_release`, and appends `delete this` exactly
when that decremented `weak_cnt_` is 0; for a managed object without embedded handle
this is the old `weak_cnt_` minus one.  When the new value is not 0 it logs nothing
(no `do_release`, no `delete this`) and leaves `weak_cnt_`, the embedded handles and
every other block unchanged. -/
theorem use_release_ordering (m : Machine) (a : Nat) :
    ((control_block.use_release m a).cb a).use_cnt_ = size_dec (m.cb a).use_cnt_ ∧
    (if size_dec (m.cb a).use_cnt_ = 0 then
      (control_block.use_release m a).releases a = m.releases a + 1 ∧
      (m.trace ++ [Event.do_release a]) <+: (control_block.use_release m a).trace ∧
      ((control_block.use_release m a).cb a).weak_cnt_ =
        size_dec ((control_block.do_release (m.set_use a 0) a).cb a).weak_cnt_ ∧
      (control_block.use_release m a).trace =
        (control_block.do_release (m.set_use a 0) a).trace ++
          (if ((control_block.use_release m a).cb a).weak_cnt_ = 0
            then [Event.delete_this a] else []) ∧
      (m.weak_this_ (m.cb a).object = none →
        ((control_block.use_release m a).cb a).weak_cnt_ = size_dec (m.cb a).weak_cnt_ ∧
        (control_block.use_release m a).trace =
          m.trace ++ Event.do_release a ::
            (if size_dec (m.cb a).weak_cnt_ = 0 then [Event.delete_this a] else []))
    else
      (control_block.use_release m a).trace = m.trace ∧
      ((control_block.use_release m a).cb a).weak_cnt_ = (m.cb a).weak_cnt_ ∧
      (control_block.use_release m a).weak_this_ = m.weak_this_ ∧
      ∀ b, b ≠ a → (control_block.use_release m a).cb b = m.cb b) := by
  by_cases hn : size_dec (m.cb a).use_cnt_ = 0
  · have hdef : control_block.use_release m a =
        (if size_dec ((control_block.do_release (m.set_use a 0) a).cb a).weak_cnt_ = 0 then
          ((control_block.do_release (m.set_use a 0) a).set_weak a
            (size_dec ((control_block.do_release (m.set_use a 0) a).cb a).weak_cnt_)).log
              (Event.delete_this a)
        else
          (control_block.do_release (m.set_use a 0) a).set_weak a
            (size_dec ((control_block.do_release (m.set_use a 0) a).cb a).weak_cnt_)) := by
      unfold control_block.use_release
      simp [hn]
    have huse := do_release_use (m.set_use a 0) a a
    have hrel := do_release_releases (m.set_use a 0) a
    have hpre := do_release_trace_prefix (m.set_use a 0) a
    simp only [Machine.set_use_cb_same, Machine.set_use_trace] at huse hpre
    simp only [Machine.releases, Machine.set_use_trace] at hrel
    rw [if_pos hn, hn]
    by_cases hw : size_dec ((control_block.do_release (m.set_use a 0) a).cb a).weak_cnt_ = 0
    · rw [hdef, if_pos hw]
      refine ⟨by simp [huse], ?_, ?_, by simp [hw], by simp [hw], ?_⟩
      · simp [Machine.releases, hrel]
      · exact hpre.trans (List.prefix_append _ _)
      · intro hplain
        have hp : (m.set_use a 0).weak_this_ ((m.set_use a 0).cb a).object = none := by
          simpa using hplain
        rw [do_release_plain _ _ hp] at hw ⊢
        simp at hw
        simp [hw]
    · rw [hdef, if_neg hw]
      refine ⟨by simp [huse], ?_, ?_, by simp, by simp [hw], ?_⟩
      · simp [Machine.releases, hrel]
      · simpa using hpre
      · intro hplain
        have hp : (m.set_use a 0).weak_this_ ((m.set_use a 0).cb a).object = none := by
          simpa using hplain
        rw [do_release_plain _ _ hp] at hw ⊢
        simp at hw
        simp [hw]
  · have hdef : control_block.use_release m a = m.set_use a (size_dec (m.cb a).use_cnt_) := by
      unfold control_block.use_release
      simp [hn]
    rw [if_neg hn, hdef]
    refine ⟨by simp, by simp, by simp, by simp, ?_⟩
    intro b hb
    exact Machine.set_use_cb_other m _ hb

/-- Witness for C1: releasing the only strong reference of a fresh block without weak
handles runs `do_release`, then `delete this`. -/
theorem use_release_ordering_witness :
    ((control_block.use_release Machine.init 7).cb 7).use_cnt_ = 0 ∧
    ((control_block.use_release Machine.init 7).cb 7).weak_cnt_ = 0 ∧
    (control_block.use_release Machine.init 7).trace =
      [Event.do_release 7, Event.delete_this 7] := by
  have h := use_release_ordering Machine.init 7
  have h1 : size_dec (Machine.init.cb 7).use_cnt_ = 0 := by decide
  rw [if_pos h1] at h
  obtain ⟨hu, -, -, -, -, hp⟩ := h
  obtain ⟨hw, ht⟩ := hp rfl
  refine ⟨hu.trans h1, hw.trans (by decide), ht.trans (by decide)⟩

/-- C2: `control_block::use_add` raises `bad_weak_ptr` exactly when `use_cnt_` is 0
(nothing is stored before the throw, so both counters keep their values); otherwise
it returns normally with `use_cnt_` increased by exactly 1, and `weak_cnt_`, the
trace, the embedded handles and every other block unchanged.  The counter is below
the largest `std::size_t`, so the increment does not wrap. -/
theorem use_add_contract (m : Machine) (a : Nat) (h : (m.cb a).use_cnt_ < 2 ^ 64 - 1) :
    (control_block.use_add m a = Except.error Exn.bad_weak_ptr ↔ (m.cb a).use_cnt_ = 0) ∧
    (if (m.cb a).use_cnt_ = 0 then
      control_block.use_add m a = Except.error Exn.bad_weak_ptr
    else
      ∃ m1, control_block.use_add m a = Except.ok m1 ∧
        (m1.cb a).use_cnt_ = (m.cb a).use_cnt_ + 1 ∧
        (m1.cb a).weak_cnt_ = (m.cb a).weak_cnt_ ∧
        m1.trace = m.trace ∧ m1.weak_this_ = m.weak_this_ ∧
        ∀ b, b ≠ a → m1.cb b = m.cb b) := by
  by_cases h0 : (m.cb a).use_cnt_ = 0
  · simp [control_block.use_add, h0]
  · refine ⟨by simp [control_block.use_add, h0], ?_⟩
    rw [if_neg h0]
    refine ⟨m.set_use a (size_inc (m.cb a).use_cnt_), by simp [control_block.use_add, h0],
      ?_, by simp, by simp, by simp, ?_⟩
    · simp [size_inc_of_lt h]
    · intro b hb
      exact Machine.set_use_cb_other m _ hb

/-- Witness for C2: on a fresh block `use_add` succeeds and makes `use_cnt_` 2. -/
theorem use_add_contract_witness :
    ∃ m1, control_block.use_add Machine.init 7 = Except.ok m1 ∧ (m1.cb 7).use_cnt_ = 2 := by
  have h := (use_add_contract Machine.init 7 (by decide)).2
  rw [if_neg (by decide)] at h
  obtain ⟨m1, h1, h2, -⟩ := h
  exact ⟨m1, h1, h2⟩

/-- C3: `control_block::weak_release` decrements `weak_cnt_` (by exactly 1 when it is
a positive `std::size_t`), appends `delete this` exactly when the new `weak_cnt_` is 0
and `use_cnt_` is 0, never runs `do_release`, and leaves `use_cnt_`, the embedded
handles and every other block unchanged. -/
theorem weak_release_contract (m : Machine) (a : Nat) :
    ((control_block.weak_release m a).cb a).weak_cnt_ = size_dec (m.cb a).weak_cnt_ ∧
    (0 < (m.cb a).weak_cnt_ → (m.cb a).weak_cnt_ < 2 ^ 64 →
      ((control_block.weak_release m a).cb a).weak_cnt_ + 1 = (m.cb a).weak_cnt_) ∧
    (control_block.weak_release m a).trace =
      m.trace ++ (if size_dec (m.cb a).weak_cnt_ = 0 ∧ (m.cb a).use_cnt_ = 0
        then [Event.delete_this a] else []) ∧
    ((control_block.weak_release m a).deletes a = m.deletes a + 1 ↔
      (((control_block.weak_release m a).cb a).weak_cnt_ = 0 ∧
        ((control_block.weak_release m a).cb a).use_cnt_ = 0)) ∧
    (∀ b, (control_block.weak_release m a).releases b = m.releases b) ∧
    (∀ b, ((control_block.weak_release m a).cb b).use_cnt_ = (m.cb b).use_cnt_) ∧
    (control_block.weak_release m a).weak_this_ = m.weak_this_ ∧
    (∀ b, b ≠ a → (control_block.weak_release m a).cb b = m.cb b) := by
  have hw := weak_release_weak m a
  have ht := weak_release_trace m a
  refine ⟨hw, ?_, ht, ?_, fun b => weak_release_releases m a b,
    fun b => weak_release_use m a b, weak_release_weak_this m a,
    fun b hb => weak_release_cb_other m hb⟩
  · intro h0 hlt
    rw [hw, size_dec_of_pos h0 hlt]
    omega
  · rw [hw, weak_release_use]
    simp only [Machine.deletes, ht]
    by_cases hc : size_dec (m.cb a).weak_cnt_ = 0 ∧ (m.cb a).use_cnt_ = 0
    · simp [hc]
    · simp [hc]

/-- Witness for C3: on a fresh block (one strong owner, no weak handle) the release
of a weak reference brings `weak_cnt_` to 0 and does not free the block. -/
theorem weak_release_contract_witness :
    ((control_block.weak_release Machine.init 7).cb 7).weak_cnt_ + 1 = 1 ∧
    (control_block.weak_release Machine.init 7).trace = [] := by
  have h := weak_release_contract Machine.init 7
  exact ⟨h.2.1 (by decide) (by decide), h.2.2.1.trans (by decide)⟩

end control_block_contracts

section handle_contracts

/-- C4: `weak_ptr::lock` always returns normally.  If the handle is non-empty and the
block's `use_cnt_` is positive, the result is the non-empty shared handle with the
weak handle's control block and pointer, `use_cnt_` is incremented (by exactly 1 below
the largest `std::size_t`) and `weak_cnt_`, the trace and every other block are
unchanged; otherwise the result is the empty shared handle and the machine is
unchanged. -/
theorem lock_contract (m : Machine) (w : weak_ptr) :
    (∃ r, weak_ptr.lock m w = Except.ok r) ∧
    (if w.cb_ ≠ 0 ∧ 0 < (m.cb w.cb_).use_cnt_ then
      ∃ m1, weak_ptr.lock m w = Except.ok (m1, { cb_ := w.cb_, ptr_ := w.ptr_ }) ∧
        shared_ptr.to_bool { cb_ := w.cb_, ptr_ := w.ptr_ } = true ∧
        (m1.cb w.cb_).use_cnt_ = size_inc (m.cb w.cb_).use_cnt_ ∧
        ((m.cb w.cb_).use_cnt_ < 2 ^ 64 - 1 →
          (m1.cb w.cb_).use_cnt_ = (m.cb w.cb_).use_cnt_ + 1) ∧
        (m1.cb w.cb_).weak_cnt_ = (m.cb w.cb_).weak_cnt_ ∧
        m1.trace = m.trace ∧ m1.weak_this_ = m.weak_this_ ∧
        ∀ b, b ≠ w.cb_ → m1.cb b = m.cb b
    else
      weak_ptr.lock m w = Except.ok (m, shared_ptr.empty)) := by
  by_cases hc : w.cb_ ≠ 0 ∧ 0 < (m.cb w.cb_).use_cnt_
  · have hne : (m.cb w.cb_).use_cnt_ ≠ 0 := Nat.pos_iff_ne_zero.mp hc.2
    have hl : weak_ptr.lock m w =
        Except.ok (m.set_use w.cb_ (size_inc (m.cb w.cb_).use_cnt_),
          { cb_ := w.cb_, ptr_ := w.ptr_ }) := by
      unfold weak_ptr.lock
      have hc2 : w.cb_ ≠ 0 ∧ control_block.use_count m w.cb_ > 0 := hc
      rw [if_pos hc2]
      simp [shared_ptr.from_weak, shared_ptr.do_add_use, control_block.use_add, hc.1, hne]
    refine ⟨⟨_, hl⟩, ?_⟩
    rw [if_pos hc]
    refine ⟨_, hl, by simp [shared_ptr.to_bool, hc.1], by simp, ?_, by simp, by simp, by simp, ?_⟩
    · intro hlt
      simp [size_inc_of_lt hlt]
    · intro b hb
      exact Machine.set_use_cb_other m _ hb
  · have hl : weak_ptr.lock m w = Except.ok (m, shared_ptr.empty) := by
      unfold weak_ptr.lock
      have hc2 : ¬ (w.cb_ ≠ 0 ∧ control_block.use_count m w.cb_ > 0) := hc
      rw [if_neg hc2]
    refine ⟨⟨_, hl⟩, ?_⟩
    rw [if_neg hc]
    exact hl

/-- Witness for C4: locking a weak handle on a fresh block yields the handle with the
same block and pointer and makes `use_cnt_` 2. -/
theorem lock_contract_witness :
    ∃ m1, weak_ptr.lock Machine.init { cb_ := 7, ptr_ := 31 } =
        Except.ok (m1, { cb_ := 7, ptr_ := 31 }) ∧ (m1.cb 7).use_cnt_ = 2 := by
  have h := (lock_contract Machine.init { cb_ := 7, ptr_ := 31 }).2
  rw [if_pos (by decide)] at h
  obtain ⟨m1, h1, -, -, h2, -⟩ := h
  exact ⟨m1, h1, h2 (by decide)⟩

end handle_contracts

section counting

theorem countP_set_of_getElem? {α : Type} (q : α → Bool) :
    ∀ (l : List α) (i : Nat) (x y : α), l[i]? = some y →
      (l.set i x).countP q + (if q y then 1 else 0) = l.countP q + (if q x then 1 else 0)
  | [], i, x, y, h => by simp at h
  | z :: l, 0, x, y, h => by
    simp only [List.getElem?_cons_zero, Option.some.injEq] at h
    subst h
    simp only [List.set_cons_zero, List.countP_cons]
    omega
  | z :: l, i + 1, x, y, h => by
    simp only [List.getElem?_cons_succ] at h
    have ih := countP_set_of_getElem? q l i x y h
    simp only [List.set_cons_succ, List.countP_cons]
    omega

theorem countP_eraseIdx_of_getElem? {α : Type} (q : α → Bool) :
    ∀ (l : List α) (i : Nat) (y : α), l[i]? = some y →
      (l.eraseIdx i).countP q + (if q y then 1 else 0) = l.countP q
  | [], i, y, h => by simp at h
  | z :: l, 0, y, h => by
    simp only [List.getElem?_cons_zero, Option.some.injEq] at h
    subst h
    simp only [List.eraseIdx_cons_zero, List.countP_cons]
  | z :: l, i + 1, y, h => by
    simp only [List.getElem?_cons_succ] at h
    have ih := countP_eraseIdx_of_getElem? q l i y h
    simp only [List.eraseIdx_cons_succ, List.countP_cons]
    omega

theorem mem_of_getElem?_eq_some {α : Type} {l : List α} {i : Nat} {y : α}
    (h : l[i]? = some y) : y ∈ l := by
  obtain ⟨hi, hy⟩ := List.getElem?_eq_some.mp h
  exact hy ▸ List.getElem_mem hi

/-- A further strong reference on a block with a live owner. -/
theorem Counted.use_add {m : Machine} {a S W : Nat} (h : Counted m a S W) (hS : 0 < S)
    (hlt : S < 2 ^ 64 - 1) :
    control_block.use_add m a = Except.ok (m.set_use a (S + 1)) ∧
      Counted (m.set_use a (S + 1)) a (S + 1) W := by
  obtain ⟨hp, hu, hw, hr, hd⟩ := h
  have h0 : (m.cb a).use_cnt_ ≠ 0 := by omega
  refine ⟨?_, ?_, ?_, ?_, ?_, ?_⟩
  · have hinc : size_inc (m.cb a).use_cnt_ = S + 1 := by
      rw [hu]
      exact size_inc_of_lt hlt
    simp [control_block.use_add, h0, hinc]
  · simpa using hp
  · simp
  · simp only [Machine.set_use_cb_same, hw]
    simp [hS]
  · simp only [Machine.releases, Machine.set_use_trace] at hr ⊢
    rw [hr]
    simp [Nat.pos_iff_ne_zero.mp hS]
  · simp only [Machine.deletes, Machine.set_use_trace] at hd ⊢
    rw [hd]
    simp [Nat.pos_iff_ne_zero.mp hS]

/-- Release of one of `S > 0` strong references. -/
theorem Counted.use_release {m : Machine} {a S W : Nat} (h : Counted m a S W) (hS : 0 < S)
    (hlt : S < 2 ^ 64) (hW : W + 1 < 2 ^ 64) :
    Counted (control_block.use_release m a) a (S - 1) W ∧
      (control_block.use_release m a).weak_this_ = m.weak_this_ := by
  obtain ⟨hp, hu, hw, hr, hd⟩ := h
  simp only [hS, if_true] at hw
  have hr0 : m.releases a = 0 := by
    rw [hr]
    simp [Nat.pos_iff_ne_zero.mp hS]
  have hd0 : m.deletes a = 0 := by
    rw [hd]
    simp [Nat.pos_iff_ne_zero.mp hS]
  have hdecu : size_dec (m.cb a).use_cnt_ = S - 1 := by
    rw [hu]
    exact size_dec_of_pos hS hlt
  have hdecw : size_dec (m.cb a).weak_cnt_ = W := by
    rw [hw, size_dec_of_pos (by omega) (by omega)]
    omega
  by_cases h1 : S = 1
  · subst h1
    have hp1 : (m.set_use a 0).weak_this_ ((m.set_use a 0).cb a).object = none := by
      simpa using hp
    have hdef : control_block.use_release m a =
        (if W = 0 then ((m.set_use a 0).log (Event.do_release a)).set_weak a W |>.log
            (Event.delete_this a)
          else ((m.set_use a 0).log (Event.do_release a)).set_weak a W) := by
      unfold control_block.use_release
      simp only [Machine.set_use_cb_same, hdecu]
      simp only [Nat.sub_self, if_true]
      rw [do_release_plain _ _ hp1]
      simp only [Machine.log_cb, Machine.set_use_cb_same, hdecw, Machine.set_weak_cb_same]
    simp only [Machine.releases] at hr0
    simp only [Machine.deletes] at hd0
    by_cases hW0 : W = 0
    · rw [hdef, if_pos hW0]
      refine ⟨⟨by simpa using hp, by simp, by simp [hW0], ?_, ?_⟩, by simp⟩
      · simp [Machine.releases, hr0]
      · simp [Machine.deletes, hd0, hW0]
    · rw [hdef, if_neg hW0]
      refine ⟨⟨by simpa using hp, by simp, by simp, ?_, ?_⟩, by simp⟩
      · simp [Machine.releases, hr0]
      · simp [Machine.deletes, hd0, hW0]
  · have hne : S - 1 ≠ 0 := by omega
    have hdef : control_block.use_release m a = m.set_use a (S - 1) := by
      unfold control_block.use_release
      simp [hdecu, hne]
    rw [hdef]
    refine ⟨⟨by simpa using hp, by simp, ?_, ?_, ?_⟩, by simp⟩
    · simp only [Machine.set_use_cb_same, hw]
      have : 0 < S - 1 := by omega
      simp [this]
    · simp only [Machine.releases, Machine.set_use_trace] at hr0 ⊢
      simp [hr0, hne]
    · simp only [Machine.deletes, Machine.set_use_trace] at hd0 ⊢
      simp [hd0, hne]

/-- A further weak reference on a block that still has a reference. -/
theorem Counted.weak_add {m : Machine} {a S W : Nat} (h : Counted m a S W)
    (hlive : 0 < S ∨ 0 < W) (hlt : W + 1 < 2 ^ 64 - 1) :
    Counted (control_block.weak_add m a) a S (W + 1) := by
  obtain ⟨hp, hu, hw, hr, hd⟩ := h
  have hinc : size_inc (m.cb a).weak_cnt_ = W + 1 + (if 0 < S then 1 else 0) := by
    rw [hw, size_inc_of_lt (by split <;> omega)]
    omega
  unfold control_block.weak_add
  refine ⟨by simpa using hp, by simpa using hu, by simp [hinc], ?_, ?_⟩
  · simpa [Machine.releases] using hr
  · simp only [Machine.deletes, Machine.set_weak_trace] at hd ⊢
    rw [hd]
    have : ¬ (S = 0 ∧ W = 0) := by omega
    simp [this]

/-- Release of one of `W > 0` weak references. -/
theorem Counted.weak_release {m : Machine} {a S W : Nat} (h : Counted m a S W) (hW : 0 < W)
    (hlt : W + 1 < 2 ^ 64) :
    Counted (control_block.weak_release m a) a S (W - 1) ∧
      (control_block.weak_release m a).weak_this_ = m.weak_this_ := by
  obtain ⟨hp, hu, hw, hr, hd⟩ := h
  have hdec : size_dec (m.cb a).weak_cnt_ = W - 1 + (if 0 < S then 1 else 0) := by
    rw [hw, size_dec_of_pos (by omega) (by split <;> omega)]
    omega
  have hd0 : m.trace.count (Event.delete_this a) = 0 := by
    have : ¬ (S = 0 ∧ W = 0) := by omega
    simpa [Machine.deletes, this] using hd
  refine ⟨⟨?_, ?_, ?_, ?_, ?_⟩, weak_release_weak_this m a⟩
  · rw [weak_release_weak_this, weak_release_object]
    exact hp
  · rw [weak_release_use, hu]
  · rw [weak_release_weak, hdec]
  · rw [weak_release_releases, hr]
  · simp only [Machine.deletes, weak_release_trace, hdec, hu]
    by_cases hS : 0 < S
    · have hne : S ≠ 0 := by omega
      simp [hS, hne, hd0]
    · have hS0 : S = 0 := by omega
      subst hS0
      by_cases hW1 : W - 1 = 0
      · simp [hW1, hd0]
      · simp [hW1, hd0]

end counting

section steps

variable {a p : Nat} {w : World}

theorem StepOk.refl (h : World.Inv a p w) : StepOk a p w w :=
  ⟨h, by omega, fun h0 => h0, by omega⟩

theorem World.owners_le (w : World) : w.owners ≤ w.shared.length := List.countP_le_length _

theorem World.observers_le (w : World) : w.observers ≤ w.weak.length := List.countP_le_length _

theorem tb_live (p : Nat) (ha : a ≠ 0) : shared_ptr.to_bool { cb_ := a, ptr_ := p } = true := by
  simp [shared_ptr.to_bool, ha]

theorem tb_empty : shared_ptr.to_bool { cb_ := 0, ptr_ := 0 } = false := by
  simp [shared_ptr.to_bool]

theorem wb_live (p : Nat) (ha : a ≠ 0) : weak_ptr.bound { cb_ := a, ptr_ := p } = true := by
  simp [weak_ptr.bound, ha]

theorem wb_empty : weak_ptr.bound { cb_ := 0, ptr_ := 0 } = false := by
  simp [weak_ptr.bound]

theorem World.owners_pos_of_mem (hm : ({ cb_ := a, ptr_ := p } : shared_ptr) ∈ w.shared)
    (ha : a ≠ 0) : 0 < w.owners :=
  List.countP_pos_iff.mpr ⟨_, hm, tb_live p ha⟩

theorem World.observers_pos_of_mem (hm : ({ cb_ := a, ptr_ := p } : weak_ptr) ∈ w.weak)
    (ha : a ≠ 0) : 0 < w.observers :=
  List.countP_pos_iff.mpr ⟨_, hm, wb_live p ha⟩

@[simp] theorem World.owners_mk (m : Machine) (l : List shared_ptr) (k : List weak_ptr) :
    World.owners ⟨m, l, k⟩ = l.countP shared_ptr.to_bool := rfl

@[simp] theorem World.observers_mk (m : Machine) (l : List shared_ptr) (k : List weak_ptr) :
    World.observers ⟨m, l, k⟩ = k.countP weak_ptr.bound := rfl

theorem countP_snoc {α : Type} (q : α → Bool) (l : List α) (x : α) :
    (l ++ [x]).countP q = l.countP q + (if q x then 1 else 0) := by
  simp only [List.countP_append, List.countP_cons, List.countP_nil, Nat.zero_add]

theorem shape_append {α : Type} {P : α → Prop} {l : List α} {x : α} (hl : ∀ y ∈ l, P y)
    (hx : P x) : ∀ y ∈ l ++ [x], P y := by
  intro y hy
  rcases List.mem_append.mp hy with h1 | h1
  · exact hl y h1
  · have : y = x := by simpa using h1
    exact this ▸ hx

theorem shape_set {α : Type} {P : α → Prop} {l : List α} {x : α} (i : Nat)
    (hl : ∀ y ∈ l, P y) (hx : P x) : ∀ y ∈ l.set i x, P y := by
  intro y hy
  rcases List.mem_or_eq_of_mem_set hy with h1 | h1
  · exact hl y h1
  · exact h1 ▸ hx

theorem shape_eraseIdx {α : Type} {P : α → Prop} {l : List α} (i : Nat)
    (hl : ∀ y ∈ l, P y) : ∀ y ∈ l.eraseIdx i, P y :=
  fun y hy => hl y (List.mem_of_mem_eraseIdx hy)

theorem reset_live (m : Machine) (p : Nat) (ha : a ≠ 0) :
    shared_ptr.reset m { cb_ := a, ptr_ := p } =
      (control_block.use_release m a, { cb_ := 0, ptr_ := 0 }) := by
  simp [shared_ptr.reset, ha]

theorem reset_empty (m : Machine) :
    shared_ptr.reset m { cb_ := 0, ptr_ := 0 } = (m, { cb_ := 0, ptr_ := 0 }) := by
  simp [shared_ptr.reset]

theorem weak_reset_live (m : Machine) (p : Nat) (ha : a ≠ 0) :
    weak_ptr.reset m { cb_ := a, ptr_ := p } =
      (control_block.weak_release m a, { cb_ := 0, ptr_ := 0 }) := by
  simp [weak_ptr.reset, ha]

theorem weak_reset_empty (m : Machine) :
    weak_ptr.reset m { cb_ := 0, ptr_ := 0 } = (m, { cb_ := 0, ptr_ := 0 }) := by
  simp [weak_ptr.reset]

/-- Appending a handle to the block, obtained by `use_add`, to a world with an owner. -/
theorem push_live (hI : World.Inv a p w) (hpos : 0 < w.owners)
    (hb : w.shared.length + w.weak.length + 2 < 2 ^ 64) :
    control_block.use_add w.m a = Except.ok (w.m.set_use a (w.owners + 1)) ∧
    StepOk a p w ⟨w.m.set_use a (w.owners + 1), w.shared ++ [{ cb_ := a, ptr_ := p }], w.weak⟩ := by
  obtain ⟨ha, hS, hW, hC⟩ := hI
  have hle := w.owners_le
  obtain ⟨hadd, hC1⟩ := hC.use_add hpos (by omega)
  have e : (w.shared ++ [({ cb_ := a, ptr_ := p } : shared_ptr)]).countP shared_ptr.to_bool =
      w.owners + 1 := by
    rw [countP_snoc, tb_live p ha]
    rfl
  refine ⟨hadd, ⟨ha, shape_append hS (Or.inl rfl), hW, ?_⟩, (by simp; omega), ?_, ?_⟩
  · simp only [World.owners_mk, World.observers_mk, e]
    exact hC1
  · intro h0
    omega
  · simp only [World.owners_mk, e]
    omega

/-- Appending an empty shared handle. -/
theorem push_empty (hI : World.Inv a p w) :
    StepOk a p w ⟨w.m, w.shared ++ [{ cb_ := 0, ptr_ := 0 }], w.weak⟩ := by
  obtain ⟨ha, hS, hW, hC⟩ := hI
  have e : (w.shared ++ [({ cb_ := 0, ptr_ := 0 } : shared_ptr)]).countP shared_ptr.to_bool =
      w.owners := by
    rw [countP_snoc, tb_empty]
    rfl
  refine ⟨⟨ha, shape_append hS (Or.inr rfl), hW, ?_⟩, (by simp; omega), ?_, ?_⟩
  · simp only [World.owners_mk, World.observers_mk, e]
    exact hC
  · simp only [World.owners_mk, e]
    exact fun h0 => h0
  · simp only [World.owners_mk, e]
    omega

theorem step_shared_copy (hI : World.Inv a p w)
    (hb : w.shared.length + w.weak.length + 2 < 2 ^ 64) (i : Nat) :
    StepOk a p w (step w (Op.shared_copy i)) := by
  have ha := hI.1
  simp only [step]
  cases hi : w.shared[i]? with
  | none => exact StepOk.refl hI
  | some h =>
    have hm := mem_of_getElem?_eq_some hi
    rcases hI.2.1 h hm with rfl | rfl
    · obtain ⟨hadd, hok⟩ := push_live hI (World.owners_pos_of_mem hm ha) hb
      have hcopy : shared_ptr.copy w.m { cb_ := a, ptr_ := p } =
          Except.ok (w.m.set_use a (w.owners + 1), { cb_ := a, ptr_ := p }) := by
        simp [shared_ptr.copy, shared_ptr.do_add_use, ha, hadd]
      simp only [hcopy]
      exact hok
    · have hcopy : shared_ptr.copy w.m { cb_ := 0, ptr_ := 0 } =
          Except.ok (w.m, { cb_ := 0, ptr_ := 0 }) := by
        simp [shared_ptr.copy, shared_ptr.do_add_use]
      simp only [hcopy]
      exact push_empty hI

theorem step_shared_from_weak (hI : World.Inv a p w)
    (hb : w.shared.length + w.weak.length + 2 < 2 ^ 64) (j : Nat) :
    StepOk a p w (step w (Op.shared_from_weak j)) := by
  have ha := hI.1
  simp only [step]
  cases hj : w.weak[j]? with
  | none => exact StepOk.refl hI
  | some x =>
    have hm := mem_of_getElem?_eq_some hj
    rcases hI.2.2.1 x hm with rfl | rfl
    · by_cases hpos : 0 < w.owners
      · obtain ⟨hadd, hok⟩ := push_live hI hpos hb
        have hctor : shared_ptr.from_weak w.m { cb_ := a, ptr_ := p } =
            Except.ok (w.m.set_use a (w.owners + 1), { cb_ := a, ptr_ := p }) := by
          simp [shared_ptr.from_weak, shared_ptr.do_add_use, ha, hadd]
        simp only [hctor]
        exact hok
      · have hu : (w.m.cb a).use_cnt_ = 0 := by
          rw [hI.2.2.2.2.1]
          omega
        have hctor : shared_ptr.from_weak w.m { cb_ := a, ptr_ := p } =
            Except.error Exn.bad_weak_ptr := by
          simp [shared_ptr.from_weak, shared_ptr.do_add_use, control_block.use_add, ha, hu]
        simp only [hctor]
        exact StepOk.refl hI
    · have hctor : shared_ptr.from_weak w.m { cb_ := 0, ptr_ := 0 } =
          Except.ok (w.m, { cb_ := 0, ptr_ := 0 }) := by
        simp [shared_ptr.from_weak, shared_ptr.do_add_use]
      simp only [hctor]
      exact push_empty hI

theorem step_lock (hI : World.Inv a p w)
    (hb : w.shared.length + w.weak.length + 2 < 2 ^ 64) (j : Nat) :
    StepOk a p w (step w (Op.lock j)) := by
  have ha := hI.1
  simp only [step]
  cases hj : w.weak[j]? with
  | none => exact StepOk.refl hI
  | some x =>
    have hm := mem_of_getElem?_eq_some hj
    rcases hI.2.2.1 x hm with rfl | rfl
    · by_cases hpos : 0 < w.owners
      · obtain ⟨hadd, hok⟩ := push_live hI hpos hb
        have hu : 0 < (w.m.cb a).use_cnt_ := by
          rw [hI.2.2.2.2.1]
          exact hpos
        have hctor : weak_ptr.lock w.m { cb_ := a, ptr_ := p } =
            Except.ok (w.m.set_use a (w.owners + 1), { cb_ := a, ptr_ := p }) := by
          simp [weak_ptr.lock, control_block.use_count, shared_ptr.from_weak,
            shared_ptr.do_add_use, ha, hadd, hu]
        simp only [hctor]
        exact hok
      · have hu : (w.m.cb a).use_cnt_ = 0 := by
          rw [hI.2.2.2.2.1]
          omega
        have hctor : weak_ptr.lock w.m { cb_ := a, ptr_ := p } =
            Except.ok (w.m, { cb_ := 0, ptr_ := 0 }) := by
          simp [weak_ptr.lock, control_block.use_count, shared_ptr.empty, hu]
        simp only [hctor]
        exact push_empty hI
    · have hctor : weak_ptr.lock w.m { cb_ := 0, ptr_ := 0 } =
          Except.ok (w.m, { cb_ := 0, ptr_ := 0 }) := by
        simp [weak_ptr.lock, shared_ptr.empty]
      simp only [hctor]
      exact push_empty hI

theorem step_shared_move (hI : World.Inv a p w) (i : Nat) :
    StepOk a p w (step w (Op.shared_move i)) := by
  obtain ⟨ha, hS, hW, hC⟩ := hI
  simp only [step]
  cases hi : w.shared[i]? with
  | none => exact StepOk.refl ⟨ha, hS, hW, hC⟩
  | some h =>
    have hm := mem_of_getElem?_eq_some hi
    have e1 := countP_set_of_getElem? shared_ptr.to_bool w.shared i { cb_ := 0, ptr_ := 0 } h hi
    have e : ((w.shared.set i { cb_ := 0, ptr_ := 0 }) ++ [h]).countP shared_ptr.to_bool =
        w.owners := by
      rw [countP_snoc]
      simp only [tb_empty, Bool.false_eq_true, if_false, Nat.add_zero] at e1
      exact e1
    have hmv : shared_ptr.move h = (h, { cb_ := 0, ptr_ := 0 }) := rfl
    simp only [hmv, StepOk, World.Inv, World.owners_mk, World.observers_mk, e]
    exact ⟨⟨ha, shape_append (shape_set i hS (Or.inr rfl)) (hS h hm), hW, hC⟩, (by simp; omega),
      fun h0 => h0, by omega⟩

/-- Emptying slot `i` of the shared handles after its `reset`. -/
theorem clear_slot (hI : World.Inv a p w)
    (hb : w.shared.length + w.weak.length + 2 < 2 ^ 64) {i : Nat} {h : shared_ptr}
    (hi : w.shared[i]? = some h) :
    StepOk a p w ⟨(shared_ptr.reset w.m h).1, w.shared.set i { cb_ := 0, ptr_ := 0 }, w.weak⟩ ∧
    (shared_ptr.reset w.m h).2 = { cb_ := 0, ptr_ := 0 } := by
  obtain ⟨ha, hS, hW, hC⟩ := hI
  have hm := mem_of_getElem?_eq_some hi
  have e1 := countP_set_of_getElem? shared_ptr.to_bool w.shared i { cb_ := 0, ptr_ := 0 } h hi
  rcases hS h hm with rfl | rfl
  · have hpos : 0 < w.owners := World.owners_pos_of_mem hm ha
    have hle := w.owners_le
    have hle2 := w.observers_le
    obtain ⟨hC1, -⟩ := hC.use_release hpos (by omega) (by omega)
    have e : (w.shared.set i { cb_ := 0, ptr_ := 0 }).countP shared_ptr.to_bool =
        w.owners - 1 := by
      simp only [World.owners] at hpos ⊢
      simp only [tb_empty, tb_live p ha, Bool.false_eq_true, if_false, if_true] at e1
      omega
    simp only [reset_live w.m p ha, StepOk, World.Inv, World.owners_mk, World.observers_mk, e]
    refine ⟨⟨⟨ha, shape_set i hS (Or.inr rfl), hW, hC1⟩, (by simp), ?_, by omega⟩, trivial⟩
    intro h0
    omega
  · have e : (w.shared.set i { cb_ := 0, ptr_ := 0 }).countP shared_ptr.to_bool = w.owners := by
      simp only [World.owners]
      simp only [tb_empty, Bool.false_eq_true, if_false] at e1
      omega
    simp only [reset_empty, StepOk, World.Inv, World.owners_mk, World.observers_mk, e]
    exact ⟨⟨⟨ha, shape_set i hS (Or.inr rfl), hW, hC⟩, (by simp), fun h0 => h0, by omega⟩,
      trivial⟩

theorem step_shared_reset (hI : World.Inv a p w)
    (hb : w.shared.length + w.weak.length + 2 < 2 ^ 64) (i : Nat) :
    StepOk a p w (step w (Op.shared_reset i)) := by
  simp only [step]
  cases hi : w.shared[i]? with
  | none => exact StepOk.refl hI
  | some h =>
    obtain ⟨hok, h2⟩ := clear_slot hI hb hi
    simp only [h2]
    exact hok

theorem step_shared_destroy (hI : World.Inv a p w)
    (hb : w.shared.length + w.weak.length + 2 < 2 ^ 64) (i : Nat) :
    StepOk a p w (step w (Op.shared_destroy i)) := by
  obtain ⟨ha, hS, hW, hC⟩ := hI
  simp only [step]
  cases hi : w.shared[i]? with
  | none => exact StepOk.refl ⟨ha, hS, hW, hC⟩
  | some h =>
    have hm := mem_of_getElem?_eq_some hi
    have e1 := countP_eraseIdx_of_getElem? shared_ptr.to_bool w.shared i h hi
    have hlen := List.length_eraseIdx_le w.shared i
    rcases hS h hm with rfl | rfl
    · have hpos : 0 < w.owners := World.owners_pos_of_mem hm ha
      have hle := w.owners_le
      have hle2 := w.observers_le
      obtain ⟨hC1, -⟩ := hC.use_release hpos (by omega) (by omega)
      have e : (w.shared.eraseIdx i).countP shared_ptr.to_bool = w.owners - 1 := by
        simp only [World.owners] at hpos ⊢
        simp only [tb_live p ha, if_true] at e1
        omega
      simp only [shared_ptr.destroy, reset_live w.m p ha, StepOk, World.Inv, World.owners_mk,
        World.observers_mk, e]
      refine ⟨⟨ha, shape_eraseIdx i hS, hW, hC1⟩, (by omega), ?_, by omega⟩
      intro h0
      omega
    · have e : (w.shared.eraseIdx i).countP shared_ptr.to_bool = w.owners := by
        simp only [World.owners]
        simp only [tb_empty, Bool.false_eq_true, if_false] at e1
        omega
      simp only [shared_ptr.destroy, reset_empty, StepOk, World.Inv, World.owners_mk,
        World.observers_mk, e]
      exact ⟨⟨ha, shape_eraseIdx i hS, hW, hC⟩, (by omega), fun h0 => h0, by omega⟩

theorem step_shared_assign (hI : World.Inv a p w)
    (hb : w.shared.length + w.weak.length + 2 < 2 ^ 64) (i j : Nat) :
    StepOk a p w (step w (Op.shared_assign i j)) := by
  simp only [step]
  cases hi : w.shared[i]? with
  | none => exact StepOk.refl hI
  | some h =>
    cases hj : w.shared[j]? with
    | none => exact StepOk.refl hI
    | some o =>
      by_cases hij : i = j
      · simp only [hij, if_true]
        exact StepOk.refl hI
      · simp only [hij, if_false]
        obtain ⟨⟨hI1, hlen1, hz1, hd1⟩, h2⟩ := clear_slot hI hb hi
        have ha := hI.1
        have hj1 : (w.shared.set i { cb_ := 0, ptr_ := 0 })[j]? = some o := by
          rw [List.getElem?_set_ne hij]
          exact hj
        have hi1 : (w.shared.set i { cb_ := 0, ptr_ := 0 })[i]? =
            some ({ cb_ := 0, ptr_ := 0 } : shared_ptr) := by
          have hlt : i < w.shared.length := (List.getElem?_eq_some.mp hi).1
          simp [List.getElem?_set_self, hlt]
        have hdes : shared_ptr.destroy w.m h = (shared_ptr.reset w.m h).1 := rfl
        have hm1 := mem_of_getElem?_eq_some hj1
        rcases hI.2.1 o (mem_of_getElem?_eq_some hj) with rfl | rfl
        · have hpos1 := World.owners_pos_of_mem (w := ⟨(shared_ptr.reset w.m h).1,
            w.shared.set i { cb_ := 0, ptr_ := 0 }, w.weak⟩) hm1 ha
          have hle1 := World.owners_le ⟨(shared_ptr.reset w.m h).1,
            w.shared.set i { cb_ := 0, ptr_ := 0 }, w.weak⟩
          simp only [World.owners_mk, List.length_set] at hpos1 hle1 hz1 hd1
          obtain ⟨-, -, hW1, hC1⟩ := hI1
          simp only [World.owners_mk, World.observers_mk] at hC1
          obtain ⟨hadd, hC2⟩ := hC1.use_add hpos1 (by omega)
          have hcopy : shared_ptr.copy (shared_ptr.destroy w.m h) { cb_ := a, ptr_ := p } =
              Except.ok ((shared_ptr.reset w.m h).1.set_use a
                ((w.shared.set i { cb_ := 0, ptr_ := 0 }).countP shared_ptr.to_bool + 1),
                { cb_ := a, ptr_ := p }) := by
            simp [shared_ptr.copy, shared_ptr.do_add_use, ha, hdes, hadd]
          have e1 := countP_set_of_getElem? shared_ptr.to_bool
            (w.shared.set i { cb_ := 0, ptr_ := 0 }) i { cb_ := a, ptr_ := p } _ hi1
          simp only [List.set_set, tb_empty, tb_live p ha, Bool.false_eq_true, if_false, if_true,
            Nat.add_zero] at e1
          simp only [hcopy, StepOk, World.Inv, World.owners_mk, World.observers_mk, e1]
          refine ⟨⟨ha, shape_set i hI.2.1 (Or.inl rfl), hW1, hC2⟩, (by simp), ?_, by omega⟩
          intro h0
          have := World.owners_pos_of_mem (w := w) (mem_of_getElem?_eq_some hj) ha
          omega
        · have hcopy : shared_ptr.copy (shared_ptr.destroy w.m h) { cb_ := 0, ptr_ := 0 } =
              Except.ok ((shared_ptr.reset w.m h).1, { cb_ := 0, ptr_ := 0 }) := by
            simp [shared_ptr.copy, shared_ptr.do_add_use, hdes]
          simp only [hcopy]
          exact ⟨hI1, hlen1, hz1, hd1⟩

theorem step_shared_move_assign (hI : World.Inv a p w)
    (hb : w.shared.length + w.weak.length + 2 < 2 ^ 64) (i j : Nat) :
    StepOk a p w (step w (Op.shared_move_assign i j)) := by
  simp only [step]
  cases hi : w.shared[i]? with
  | none => exact StepOk.refl hI
  | some h =>
    cases hj : w.shared[j]? with
    | none => exact StepOk.refl hI
    | some o =>
      by_cases hij : i = j
      · simp only [hij, if_true]
        exact StepOk.refl hI
      · simp only [hij, if_false]
        obtain ⟨⟨hI1, hlen1, hz1, hd1⟩, h2⟩ := clear_slot hI hb hi
        have ha := hI.1
        have hdes : shared_ptr.destroy w.m h = (shared_ptr.reset w.m h).1 := rfl
        have hmv : shared_ptr.move o = (o, { cb_ := 0, ptr_ := 0 }) := rfl
        have hlt : i < w.shared.length := (List.getElem?_eq_some.mp hi).1
        have hjo : (w.shared.set i o)[j]? = some o := by
          rw [List.getElem?_set_ne hij]
          exact hj
        have ea := countP_set_of_getElem? shared_ptr.to_bool w.shared i
          { cb_ := 0, ptr_ := 0 } h hi
        have eb := countP_set_of_getElem? shared_ptr.to_bool w.shared i o h hi
        have ec := countP_set_of_getElem? shared_ptr.to_bool (w.shared.set i o) j
          { cb_ := 0, ptr_ := 0 } o hjo
        have e : ((w.shared.set i o).set j { cb_ := 0, ptr_ := 0 }).countP shared_ptr.to_bool =
            (w.shared.set i { cb_ := 0, ptr_ := 0 }).countP shared_ptr.to_bool := by
          simp only [tb_empty, Bool.false_eq_true, if_false, Nat.add_zero] at ea ec
          omega
        obtain ⟨-, -, hW1, hC1⟩ := hI1
        simp only [World.owners_mk, World.observers_mk, List.length_set] at hC1 hlen1 hz1 hd1
        simp only [hdes, hmv, StepOk, World.Inv, World.owners_mk, World.observers_mk, e]
        refine ⟨⟨ha, shape_set j (shape_set i hI.2.1 (hI.2.1 o (mem_of_getElem?_eq_some hj)))
          (Or.inr rfl), hW1, hC1⟩, (by simp), hz1, hd1⟩

/-- Appending a weak handle to the block, obtained by `weak_add`, to a world where the
block still has a reference. -/
theorem push_weak_live (hI : World.Inv a p w) (hlive : 0 < w.owners ∨ 0 < w.observers)
    (hb : w.shared.length + w.weak.length + 2 < 2 ^ 64) :
    StepOk a p w ⟨control_block.weak_add w.m a, w.shared, w.weak ++ [{ cb_ := a, ptr_ := p }]⟩ := by
  obtain ⟨ha, hS, hW, hC⟩ := hI
  have hle := w.observers_le
  have hC1 := hC.weak_add hlive (by omega)
  have e : (w.weak ++ [({ cb_ := a, ptr_ := p } : weak_ptr)]).countP weak_ptr.bound =
      w.observers + 1 := by
    rw [countP_snoc, wb_live p ha]
    rfl
  refine ⟨⟨ha, hS, shape_append hW (Or.inl rfl), ?_⟩, (by simp; omega), fun h0 => h0, ?_⟩
  · simp only [World.owners_mk, World.observers_mk, e]
    exact hC1
  · simp only [World.owners_mk]
    exact Nat.le_succ _

/-- Appending an empty weak handle. -/
theorem push_weak_empty (hI : World.Inv a p w) :
    StepOk a p w ⟨w.m, w.shared, w.weak ++ [{ cb_ := 0, ptr_ := 0 }]⟩ := by
  obtain ⟨ha, hS, hW, hC⟩ := hI
  have e : (w.weak ++ [({ cb_ := 0, ptr_ := 0 } : weak_ptr)]).countP weak_ptr.bound =
      w.observers := by
    rw [countP_snoc, wb_empty]
    rfl
  refine ⟨⟨ha, hS, shape_append hW (Or.inr rfl), ?_⟩, (by simp; omega), fun h0 => h0, ?_⟩
  · simp only [World.owners_mk, World.observers_mk, e]
    exact hC
  · simp only [World.owners_mk]
    exact Nat.le_succ _

theorem step_weak_from_shared (hI : World.Inv a p w)
    (hb : w.shared.length + w.weak.length + 2 < 2 ^ 64) (i : Nat) :
    StepOk a p w (step w (Op.weak_from_shared i)) := by
  have ha := hI.1
  simp only [step]
  cases hi : w.shared[i]? with
  | none => exact StepOk.refl hI
  | some h =>
    have hm := mem_of_getElem?_eq_some hi
    rcases hI.2.1 h hm with rfl | rfl
    · have hctor : weak_ptr.from_shared w.m { cb_ := a, ptr_ := p } =
          (control_block.weak_add w.m a, { cb_ := a, ptr_ := p }) := by
        simp [weak_ptr.from_shared, ha]
      simp only [hctor]
      exact push_weak_live hI (Or.inl (World.owners_pos_of_mem hm ha)) hb
    · have hctor : weak_ptr.from_shared w.m { cb_ := 0, ptr_ := 0 } =
          (w.m, { cb_ := 0, ptr_ := 0 }) := by
        simp [weak_ptr.from_shared]
      simp only [hctor]
      exact push_weak_empty hI

theorem step_weak_copy (hI : World.Inv a p w)
    (hb : w.shared.length + w.weak.length + 2 < 2 ^ 64) (j : Nat) :
    StepOk a p w (step w (Op.weak_copy j)) := by
  have ha := hI.1
  simp only [step]
  cases hj : w.weak[j]? with
  | none => exact StepOk.refl hI
  | some x =>
    have hm := mem_of_getElem?_eq_some hj
    rcases hI.2.2.1 x hm with rfl | rfl
    · have hctor : weak_ptr.copy w.m { cb_ := a, ptr_ := p } =
          (control_block.weak_add w.m a, { cb_ := a, ptr_ := p }) := by
        simp [weak_ptr.copy, ha]
      simp only [hctor]
      exact push_weak_live hI (Or.inr (World.observers_pos_of_mem hm ha)) hb
    · have hctor : weak_ptr.copy w.m { cb_ := 0, ptr_ := 0 } =
          (w.m, { cb_ := 0, ptr_ := 0 }) := by
        simp [weak_ptr.copy]
      simp only [hctor]
      exact push_weak_empty hI

theorem step_weak_move (hI : World.Inv a p w) (j : Nat) :
    StepOk a p w (step w (Op.weak_move j)) := by
  obtain ⟨ha, hS, hW, hC⟩ := hI
  simp only [step]
  cases hj : w.weak[j]? with
  | none => exact StepOk.refl ⟨ha, hS, hW, hC⟩
  | some x =>
    have hm := mem_of_getElem?_eq_some hj
    have e1 := countP_set_of_getElem? weak_ptr.bound w.weak j { cb_ := 0, ptr_ := 0 } x hj
    have e : ((w.weak.set j { cb_ := 0, ptr_ := 0 }) ++ [x]).countP weak_ptr.bound =
        w.observers := by
      rw [countP_snoc]
      simp only [wb_empty, Bool.false_eq_true, if_false, Nat.add_zero] at e1
      exact e1
    have hmv : weak_ptr.move x = (x, { cb_ := 0, ptr_ := 0 }) := rfl
    simp only [hmv, StepOk, World.Inv, World.owners_mk, World.observers_mk, e]
    exact ⟨⟨ha, hS, shape_append (shape_set j hW (Or.inr rfl)) (hW x hm), hC⟩, (by simp; omega),
      fun h0 => h0, Nat.le_succ _⟩

/-- Emptying slot `j` of the weak handles after its `reset`. -/
theorem clear_weak_slot (hI : World.Inv a p w)
    (hb : w.shared.length + w.weak.length + 2 < 2 ^ 64) {j : Nat} {x : weak_ptr}
    (hj : w.weak[j]? = some x) :
    StepOk a p w ⟨(weak_ptr.reset w.m x).1, w.shared, w.weak.set j { cb_ := 0, ptr_ := 0 }⟩ ∧
    (weak_ptr.reset w.m x).2 = { cb_ := 0, ptr_ := 0 } := by
  obtain ⟨ha, hS, hW, hC⟩ := hI
  have hm := mem_of_getElem?_eq_some hj
  have e1 := countP_set_of_getElem? weak_ptr.bound w.weak j { cb_ := 0, ptr_ := 0 } x hj
  rcases hW x hm with rfl | rfl
  · have hpos : 0 < w.observers := World.observers_pos_of_mem hm ha
    have hle2 := w.observers_le
    obtain ⟨hC1, -⟩ := hC.weak_release hpos (by omega)
    have e : (w.weak.set j { cb_ := 0, ptr_ := 0 }).countP weak_ptr.bound =
        w.observers - 1 := by
      simp only [World.observers] at hpos ⊢
      simp only [wb_empty, wb_live p ha, Bool.false_eq_true, if_false, if_true] at e1
      omega
    simp only [weak_reset_live w.m p ha, StepOk, World.Inv, World.owners_mk,
      World.observers_mk, e]
    exact ⟨⟨⟨ha, hS, shape_set j hW (Or.inr rfl), hC1⟩, (by simp), fun h0 => h0, Nat.le_succ _⟩,
      trivial⟩
  · have e : (w.weak.set j { cb_ := 0, ptr_ := 0 }).countP weak_ptr.bound = w.observers := by
      simp only [World.observers]
      simp only [wb_empty, Bool.false_eq_true, if_false] at e1
      omega
    simp only [weak_reset_empty, StepOk, World.Inv, World.owners_mk, World.observers_mk, e]
    exact ⟨⟨⟨ha, hS, shape_set j hW (Or.inr rfl), hC⟩, (by simp), fun h0 => h0, Nat.le_succ _⟩,
      trivial⟩

theorem step_weak_reset (hI : World.Inv a p w)
    (hb : w.shared.length + w.weak.length + 2 < 2 ^ 64) (j : Nat) :
    StepOk a p w (step w (Op.weak_reset j)) := by
  simp only [step]
  cases hj : w.weak[j]? with
  | none => exact StepOk.refl hI
  | some x =>
    obtain ⟨hok, h2⟩ := clear_weak_slot hI hb hj
    simp only [h2]
    exact hok

theorem step_weak_destroy (hI : World.Inv a p w)
    (hb : w.shared.length + w.weak.length + 2 < 2 ^ 64) (j : Nat) :
    StepOk a p w (step w (Op.weak_destroy j)) := by
  obtain ⟨ha, hS, hW, hC⟩ := hI
  simp only [step]
  cases hj : w.weak[j]? with
  | none => exact StepOk.refl ⟨ha, hS, hW, hC⟩
  | some x =>
    have hm := mem_of_getElem?_eq_some hj
    have e1 := countP_eraseIdx_of_getElem? weak_ptr.bound w.weak j x hj
    have hlen := List.length_eraseIdx_le w.weak j
    rcases hW x hm with rfl | rfl
    · have hpos : 0 < w.observers := World.observers_pos_of_mem hm ha
      have hle2 := w.observers_le
      obtain ⟨hC1, -⟩ := hC.weak_release hpos (by omega)
      have e : (w.weak.eraseIdx j).countP weak_ptr.bound = w.observers - 1 := by
        simp only [World.observers] at hpos ⊢
        simp only [wb_live p ha, if_true] at e1
        omega
      simp only [weak_ptr.destroy, weak_reset_live w.m p ha, StepOk, World.Inv, World.owners_mk,
        World.observers_mk, e]
      exact ⟨⟨ha, hS, shape_eraseIdx j hW, hC1⟩, (by omega), fun h0 => h0, Nat.le_succ _⟩
    · have e : (w.weak.eraseIdx j).countP weak_ptr.bound = w.observers := by
        simp only [World.observers]
        simp only [wb_empty, Bool.false_eq_true, if_false] at e1
        omega
      simp only [weak_ptr.destroy, weak_reset_empty, StepOk, World.Inv, World.owners_mk,
        World.observers_mk, e]
      exact ⟨⟨ha, hS, shape_eraseIdx j hW, hC⟩, (by omega), fun h0 => h0, Nat.le_succ _⟩

theorem step_weak_assign (hI : World.Inv a p w)
    (hb : w.shared.length + w.weak.length + 2 < 2 ^ 64) (i j : Nat) :
    StepOk a p w (step w (Op.weak_assign i j)) := by
  simp only [step]
  cases hi : w.weak[i]? with
  | none => exact StepOk.refl hI
  | some x =>
    cases hj : w.weak[j]? with
    | none => exact StepOk.refl hI
    | some o =>
      by_cases hij : i = j
      · simp only [hij, if_true]
        exact StepOk.refl hI
      · simp only [hij, if_false]
        obtain ⟨⟨hI1, hlen1, hz1, hd1⟩, h2⟩ := clear_weak_slot hI hb hi
        have ha := hI.1
        have hj1 : (w.weak.set i { cb_ := 0, ptr_ := 0 })[j]? = some o := by
          rw [List.getElem?_set_ne hij]
          exact hj
        have hi1 : (w.weak.set i { cb_ := 0, ptr_ := 0 })[i]? =
            some ({ cb_ := 0, ptr_ := 0 } : weak_ptr) := by
          have hlt : i < w.weak.length := (List.getElem?_eq_some.mp hi).1
          simp [List.getElem?_set_self, hlt]
        have hdes : weak_ptr.destroy w.m x = (weak_ptr.reset w.m x).1 := rfl
        have hm1 := mem_of_getElem?_eq_some hj1
        rcases hI.2.2.1 o (mem_of_getElem?_eq_some hj) with rfl | rfl
        · have hpos1 := World.observers_pos_of_mem (w := ⟨(weak_ptr.reset w.m x).1, w.shared,
            w.weak.set i { cb_ := 0, ptr_ := 0 }⟩) hm1 ha
          have hle1 := World.observers_le ⟨(weak_ptr.reset w.m x).1, w.shared,
            w.weak.set i { cb_ := 0, ptr_ := 0 }⟩
          simp only [World.owners_mk, World.observers_mk, List.length_set] at hpos1 hle1 hz1 hd1
          obtain ⟨-, hS1, -, hC1⟩ := hI1
          simp only [World.owners_mk, World.observers_mk] at hC1
          have hC2 := hC1.weak_add (Or.inr hpos1) (by omega)
          have hcopy : weak_ptr.copy (weak_ptr.destroy w.m x) { cb_ := a, ptr_ := p } =
              (control_block.weak_add (weak_ptr.reset w.m x).1 a, { cb_ := a, ptr_ := p }) := by
            simp [weak_ptr.copy, ha, hdes]
          have e1 := countP_set_of_getElem? weak_ptr.bound
            (w.weak.set i { cb_ := 0, ptr_ := 0 }) i { cb_ := a, ptr_ := p } _ hi1
          simp only [List.set_set, wb_empty, wb_live p ha, Bool.false_eq_true, if_false, if_true,
            Nat.add_zero] at e1
          simp only [hcopy, StepOk, World.Inv, World.owners_mk, World.observers_mk, e1]
          exact ⟨⟨ha, hS1, shape_set i hI.2.2.1 (Or.inl rfl), hC2⟩, (by simp), fun h0 => h0,
            Nat.le_succ _⟩
        · have hcopy : weak_ptr.copy (weak_ptr.destroy w.m x) { cb_ := 0, ptr_ := 0 } =
              ((weak_ptr.reset w.m x).1, { cb_ := 0, ptr_ := 0 }) := by
            simp [weak_ptr.copy, hdes]
          simp only [hcopy]
          exact ⟨hI1, hlen1, hz1, hd1⟩

theorem step_weak_move_assign (hI : World.Inv a p w)
    (hb : w.shared.length + w.weak.length + 2 < 2 ^ 64) (i j : Nat) :
    StepOk a p w (step w (Op.weak_move_assign i j)) := by
  simp only [step]
  cases hi : w.weak[i]? with
  | none => exact StepOk.refl hI
  | some x =>
    cases hj : w.weak[j]? with
    | none => exact StepOk.refl hI
    | some o =>
      by_cases hij : i = j
      · simp only [hij, if_true]
        exact StepOk.refl hI
      · simp only [hij, if_false]
        obtain ⟨⟨hI1, hlen1, hz1, hd1⟩, h2⟩ := clear_weak_slot hI hb hi
        have ha := hI.1
        have hdes : weak_ptr.destroy w.m x = (weak_ptr.reset w.m x).1 := rfl
        have hmv : weak_ptr.move o = (o, { cb_ := 0, ptr_ := 0 }) := rfl
        have hjo : (w.weak.set i o)[j]? = some o := by
          rw [List.getElem?_set_ne hij]
          exact hj
        have ea := countP_set_of_getElem? weak_ptr.bound w.weak i { cb_ := 0, ptr_ := 0 } x hi
        have eb := countP_set_of_getElem? weak_ptr.bound w.weak i o x hi
        have ec := countP_set_of_getElem? weak_ptr.bound (w.weak.set i o) j
          { cb_ := 0, ptr_ := 0 } o hjo
        have e : ((w.weak.set i o).set j { cb_ := 0, ptr_ := 0 }).countP weak_ptr.bound =
            (w.weak.set i { cb_ := 0, ptr_ := 0 }).countP weak_ptr.bound := by
          simp only [wb_empty, Bool.false_eq_true, if_false, Nat.add_zero] at ea ec
          omega
        obtain ⟨-, hS1, -, hC1⟩ := hI1
        simp only [World.owners_mk, World.observers_mk, List.length_set] at hC1 hlen1 hz1 hd1
        simp only [hdes, hmv, StepOk, World.Inv, World.owners_mk, World.observers_mk, e]
        exact ⟨⟨ha, hS1, shape_set j (shape_set i hI.2.2.1
          (hI.2.2.1 o (mem_of_getElem?_eq_some hj))) (Or.inr rfl), hC1⟩, (by simp), hz1, hd1⟩

/-- Every operation keeps the invariant, adds at most one handle variable, creates no
owner once there is none and removes at most one owner. -/
theorem step_ok (hI : World.Inv a p w) (hb : w.shared.length + w.weak.length + 2 < 2 ^ 64)
    (op : Op) : StepOk a p w (step w op) := by
  cases op with
  | shared_copy i => exact step_shared_copy hI hb i
  | shared_move i => exact step_shared_move hI i
  | shared_from_weak j => exact step_shared_from_weak hI hb j
  | shared_assign i j => exact step_shared_assign hI hb i j
  | shared_move_assign i j => exact step_shared_move_assign hI hb i j
  | shared_reset i => exact step_shared_reset hI hb i
  | shared_destroy i => exact step_shared_destroy hI hb i
  | weak_from_shared i => exact step_weak_from_shared hI hb i
  | weak_copy j => exact step_weak_copy hI hb j
  | weak_move j => exact step_weak_move hI j
  | weak_assign i j => exact step_weak_assign hI hb i j
  | weak_move_assign i j => exact step_weak_move_assign hI hb i j
  | weak_reset j => exact step_weak_reset hI hb j
  | weak_destroy j => exact step_weak_destroy hI hb j
  | lock j => exact step_lock hI hb j

/-- A fresh world satisfies the invariant. -/
theorem World.Fresh.inv {w : World} (h : World.Fresh a p w) : World.Inv a p w := by
  obtain ⟨ha, hs, hw, hu, hwk, ho, hp, hr, hd⟩ := h
  have eo : w.owners = 1 := by
    simp [World.owners, hs, tb_live p ha]
  have eb : w.observers = 0 := by
    simp [World.observers, hw]
  refine ⟨ha, ?_, ?_, ?_⟩
  · intro h hh
    rw [hs] at hh
    exact Or.inl (by simpa using hh)
  · intro x hx
    rw [hw] at hx
    simp at hx
  · rw [eo, eb]
    exact ⟨by rw [ho]; exact hp, hu, by simp [hwk], by simp [hr], by simp [hd]⟩

/-- Runs of bounded length from a world satisfying the invariant stay within it. -/
theorem run_inv (ops : List Op) :
    ∀ (w : World), World.Inv a p w → w.shared.length + w.weak.length + ops.length + 2 < 2 ^ 64 →
      World.Inv a p (run w ops) ∧
        (run w ops).shared.length + (run w ops).weak.length ≤
          w.shared.length + w.weak.length + ops.length := by
  induction ops with
  | nil =>
    intro w hI _
    exact ⟨hI, Nat.le_refl _⟩
  | cons op ops ih =>
    intro w hI hb
    simp only [List.length_cons] at hb
    obtain ⟨hI1, hlen1, -, -⟩ := step_ok hI (by omega) op
    obtain ⟨hI2, hlen2⟩ := ih (step w op) hI1 (by omega)
    refine ⟨hI2, ?_⟩
    simp only [List.length_cons]
    have e : run w (op :: ops) = run (step w op) ops := rfl
    rw [e]
    omega

/-- Without any non-empty handle no operation changes the machine. -/
theorem step_machine_of_no_handle (hI : World.Inv a p w) (h0 : w.owners = 0)
    (h1 : w.observers = 0) (op : Op) : (step w op).m = w.m := by
  have ha := hI.1
  have allS : ∀ h ∈ w.shared, h = ({ cb_ := 0, ptr_ := 0 } : shared_ptr) := by
    intro h hh
    rcases hI.2.1 h hh with rfl | rfl
    · have := World.owners_pos_of_mem hh ha
      omega
    · rfl
  have allW : ∀ x ∈ w.weak, x = ({ cb_ := 0, ptr_ := 0 } : weak_ptr) := by
    intro x hx
    rcases hI.2.2.1 x hx with rfl | rfl
    · have := World.observers_pos_of_mem hx ha
      omega
    · rfl
  cases op with
  | shared_copy i =>
    simp only [step]
    cases hi : w.shared[i]? with
    | none => rfl
    | some h =>
      obtain rfl := allS h (mem_of_getElem?_eq_some hi)
      simp [shared_ptr.copy, shared_ptr.do_add_use]
  | shared_move i =>
    simp only [step]
    cases hi : w.shared[i]? with
    | none => rfl
    | some h => rfl
  | shared_from_weak j =>
    simp only [step]
    cases hj : w.weak[j]? with
    | none => rfl
    | some x =>
      obtain rfl := allW x (mem_of_getElem?_eq_some hj)
      simp [shared_ptr.from_weak, shared_ptr.do_add_use]
  | shared_assign i j =>
    simp only [step]
    cases hi : w.shared[i]? with
    | none => rfl
    | some h =>
      cases hj : w.shared[j]? with
      | none => rfl
      | some o =>
        obtain rfl := allS h (mem_of_getElem?_eq_some hi)
        obtain rfl := allS o (mem_of_getElem?_eq_some hj)
        by_cases hij : i = j
        · simp [hij]
        · simp [hij, shared_ptr.copy, shared_ptr.do_add_use, shared_ptr.destroy, reset_empty]
  | shared_move_assign i j =>
    simp only [step]
    cases hi : w.shared[i]? with
    | none => rfl
    | some h =>
      cases hj : w.shared[j]? with
      | none => rfl
      | some o =>
        obtain rfl := allS h (mem_of_getElem?_eq_some hi)
        by_cases hij : i = j
        · simp [hij]
        · simp [hij, shared_ptr.destroy, reset_empty]
  | shared_reset i =>
    simp only [step]
    cases hi : w.shared[i]? with
    | none => rfl
    | some h =>
      obtain rfl := allS h (mem_of_getElem?_eq_some hi)
      simp [reset_empty]
  | shared_destroy i =>
    simp only [step]
    cases hi : w.shared[i]? with
    | none => rfl
    | some h =>
      obtain rfl := allS h (mem_of_getElem?_eq_some hi)
      simp [shared_ptr.destroy, reset_empty]
  | weak_from_shared i =>
    simp only [step]
    cases hi : w.shared[i]? with
    | none => rfl
    | some h =>
      obtain rfl := allS h (mem_of_getElem?_eq_some hi)
      simp [weak_ptr.from_shared]
  | weak_copy j =>
    simp only [step]
    cases hj : w.weak[j]? with
    | none => rfl
    | some x =>
      obtain rfl := allW x (mem_of_getElem?_eq_some hj)
      simp [weak_ptr.copy]
  | weak_move j =>
    simp only [step]
    cases hj : w.weak[j]? with
    | none => rfl
    | some x => rfl
  | weak_assign i j =>
    simp only [step]
    cases hi : w.weak[i]? with
    | none => rfl
    | some x =>
      cases hj : w.weak[j]? with
      | none => rfl
      | some o =>
        obtain rfl := allW x (mem_of_getElem?_eq_some hi)
        obtain rfl := allW o (mem_of_getElem?_eq_some hj)
        by_cases hij : i = j
        · simp [hij]
        · simp [hij, weak_ptr.copy, weak_ptr.destroy, weak_reset_empty]
  | weak_move_assign i j =>
    simp only [step]
    cases hi : w.weak[i]? with
    | none => rfl
    | some x =>
      cases hj : w.weak[j]? with
      | none => rfl
      | some o =>
        obtain rfl := allW x (mem_of_getElem?_eq_some hi)
        by_cases hij : i = j
        · simp [hij]
        · simp [hij, weak_ptr.destroy, weak_reset_empty]
  | weak_reset j =>
    simp only [step]
    cases hj : w.weak[j]? with
    | none => rfl
    | some x =>
      obtain rfl := allW x (mem_of_getElem?_eq_some hj)
      simp [weak_reset_empty]
  | weak_destroy j =>
    simp only [step]
    cases hj : w.weak[j]? with
    | none => rfl
    | some x =>
      obtain rfl := allW x (mem_of_getElem?_eq_some hj)
      simp [weak_ptr.destroy, weak_reset_empty]
  | lock j =>
    simp only [step]
    cases hj : w.weak[j]? with
    | none => rfl
    | some x =>
      obtain rfl := allW x (mem_of_getElem?_eq_some hj)
      simp [weak_ptr.lock]

/-- Under the invariant the non-empty shared handles are those of the block. -/
theorem World.Inv.owners_eq (hI : World.Inv a p w) :
    w.shared.countP (fun h => decide (h.cb_ = a)) = w.owners := by
  unfold World.owners
  apply List.countP_congr
  intro h hh
  rcases hI.2.1 h hh with rfl | rfl
  · simp [shared_ptr.to_bool, hI.1]
  · simp [shared_ptr.to_bool, Ne.symm hI.1]

/-- Under the invariant the non-empty weak handles are those of the block. -/
theorem World.Inv.observers_eq (hI : World.Inv a p w) :
    w.weak.countP (fun x => decide (x.cb_ = a)) = w.observers := by
  unfold World.observers
  apply List.countP_congr
  intro x hx
  rcases hI.2.2.1 x hx with rfl | rfl
  · simp [weak_ptr.bound, hI.1]
  · simp [weak_ptr.bound, Ne.symm hI.1]

end steps

section invariants

/-- In-place construction of an object without the self-reference capability, in
memory whose address carries no event yet, yields a fresh world. -/
theorem fresh_of_make_shared (m : Machine) (mem : Nat) (hmem : mem ≠ 0)
    (hr : m.releases mem = 0) (hd : m.deletes mem = 0) :
    (make_shared m (Pack.values mem true Embedded.absent)).2 =
        Except.ok { cb_ := mem, ptr_ := control_block_impl.object mem } ∧
      World.Fresh mem (control_block_impl.object mem)
        ⟨(make_shared m (Pack.values mem true Embedded.absent)).1,
          [{ cb_ := mem, ptr_ := control_block_impl.object mem }], []⟩ := by
  simp only [Machine.releases, Machine.deletes] at hr hd
  simp [make_shared, shared_ptr.emplace, control_block_impl.construct, hmem, World.Fresh,
    raii_guard.make_defer, raii_guard.dismiss, raii_guard.destroy,
    shared_ptr.enable_shared_from_this_with, Machine.releases, Machine.deletes, hr, hd]

/-- Adoption of a non-null pointer to an object without the self-reference capability,
by a block whose address carries no event yet, yields a fresh world. -/
theorem fresh_of_adopt (m : Machine) (blk ptr : Nat) (hblk : blk ≠ 0) (hptr : ptr ≠ 0)
    (hp : m.weak_this_ ptr = none) (hr : m.releases blk = 0) (hd : m.deletes blk = 0) :
    (shared_ptr.adopt m blk ptr).2 = { cb_ := blk, ptr_ := ptr } ∧
      World.Fresh blk ptr ⟨(shared_ptr.adopt m blk ptr).1, [{ cb_ := blk, ptr_ := ptr }], []⟩ := by
  simp only [Machine.releases, Machine.deletes] at hr hd
  simp [shared_ptr.adopt, hptr, hblk, World.Fresh, shared_ptr.enable_shared_from_this_with, hp,
    Machine.releases, Machine.deletes, hr, hd]

theorem World.sample_fresh : World.Fresh 1000 1024 World.sample :=
  (fresh_of_make_shared Machine.init 1000 (by decide) (by decide) (by decide)).2

/-- C6: in every world reached from a fresh control block `a` (object without the
self-reference capability) by public handle operations, every non-empty handle refers
to `a`, `use_cnt_` is the number of shared handles referring to `a`, and `weak_cnt_` is
the number of weak handles referring to `a` plus 1 while `use_cnt_` is positive; the
block has been freed exactly when no handle refers to it any more.  Runs are shorter
than `2 ^ 64` operations, so that no counter wraps. -/
theorem counting_invariant (a p : Nat) (w0 : World) (hfresh : World.Fresh a p w0)
    (ops : List Op) (hlen : ops.length + 3 < 2 ^ 64) :
    (∀ h ∈ (run w0 ops).shared, h.cb_ = a ∨ h.cb_ = 0) ∧
    (∀ x ∈ (run w0 ops).weak, x.cb_ = a ∨ x.cb_ = 0) ∧
    ((run w0 ops).m.cb a).use_cnt_ =
      (run w0 ops).shared.countP (fun h => decide (h.cb_ = a)) ∧
    ((run w0 ops).m.cb a).weak_cnt_ =
      (run w0 ops).weak.countP (fun x => decide (x.cb_ = a)) +
        (if 0 < ((run w0 ops).m.cb a).use_cnt_ then 1 else 0) ∧
    (run w0 ops).m.deletes a =
      (if (run w0 ops).shared.countP (fun h => decide (h.cb_ = a)) = 0 ∧
          (run w0 ops).weak.countP (fun x => decide (x.cb_ = a)) = 0 then 1 else 0) := by
  have hI0 := hfresh.inv
  have hl0 : w0.shared.length + w0.weak.length = 1 := by
    rw [hfresh.2.1, hfresh.2.2.1]
    rfl
  obtain ⟨hI, -⟩ := run_inv ops w0 hI0 (by omega)
  obtain ⟨-, hu, hw, -, hd⟩ := hI.2.2.2
  rw [hI.owners_eq, hI.observers_eq, hu]
  refine ⟨?_, ?_, rfl, hw, hd⟩
  · intro h hh
    rcases hI.2.1 h hh with rfl | rfl
    · exact Or.inl rfl
    · exact Or.inr rfl
  · intro x hx
    rcases hI.2.2.1 x hx with rfl | rfl
    · exact Or.inl rfl
    · exact Or.inr rfl

/-- Witness for C6: after copying `A`, taking a weak handle from the copy and
destroying `A`, the block has `use_cnt_ = 1` and `weak_cnt_ = 2`. -/
theorem counting_invariant_witness :
    ((run World.sample [Op.shared_copy 0, Op.weak_from_shared 1, Op.shared_destroy 0]).m.cb
        1000).use_cnt_ = 1 ∧
    ((run World.sample [Op.shared_copy 0, Op.weak_from_shared 1, Op.shared_destroy 0]).m.cb
        1000).weak_cnt_ = 2 := by
  obtain ⟨-, -, hu, hw, -⟩ := counting_invariant 1000 1024 World.sample World.sample_fresh
    [Op.shared_copy 0, Op.weak_from_shared 1, Op.shared_destroy 0] (by decide)
  refine ⟨hu.trans (by decide), hw.trans (by decide)⟩

/-- C7: along every run from a fresh control block `a` (object without the
self-reference capability), before and after any further operation: `do_release` has
run once if `use_cnt_` is 0 and never otherwise, a step adds a run of `do_release`
exactly when it takes `use_cnt_` from 1 to 0, and `use_cnt_` stays 0 once it is 0;
`delete this` has run once if `weak_cnt_` is 0 and never otherwise, a step adds a
`delete this` exactly when it takes `weak_cnt_` from a non-zero value to 0, which
requires `use_cnt_` to be 0; once the block is freed no handle refers to it and no
operation changes the machine any more. -/
theorem lifetime_invariant (a p : Nat) (w0 : World) (hfresh : World.Fresh a p w0)
    (ops : List Op) (op : Op) (hlen : ops.length + 4 < 2 ^ 64) :
    (run w0 ops).m.releases a = (if ((run w0 ops).m.cb a).use_cnt_ = 0 then 1 else 0) ∧
    (step (run w0 ops) op).m.releases a =
      (run w0 ops).m.releases a +
        (if ((run w0 ops).m.cb a).use_cnt_ = 1 ∧ ((step (run w0 ops) op).m.cb a).use_cnt_ = 0
          then 1 else 0) ∧
    (((run w0 ops).m.cb a).use_cnt_ = 0 → ((step (run w0 ops) op).m.cb a).use_cnt_ = 0) ∧
    (run w0 ops).m.deletes a = (if ((run w0 ops).m.cb a).weak_cnt_ = 0 then 1 else 0) ∧
    (step (run w0 ops) op).m.deletes a =
      (run w0 ops).m.deletes a +
        (if ((run w0 ops).m.cb a).weak_cnt_ ≠ 0 ∧ ((step (run w0 ops) op).m.cb a).weak_cnt_ = 0
          then 1 else 0) ∧
    (((step (run w0 ops) op).m.cb a).weak_cnt_ = 0 →
      ((step (run w0 ops) op).m.cb a).use_cnt_ = 0) ∧
    ((run w0 ops).m.deletes a = 1 →
      (∀ h ∈ (run w0 ops).shared, h.cb_ = 0) ∧ (∀ x ∈ (run w0 ops).weak, x.cb_ = 0) ∧
      (step (run w0 ops) op).m = (run w0 ops).m) := by
  have hI0 := hfresh.inv
  have hl0 : w0.shared.length + w0.weak.length = 1 := by
    rw [hfresh.2.1, hfresh.2.2.1]
    rfl
  obtain ⟨hI, hl⟩ := run_inv ops w0 hI0 (by omega)
  obtain ⟨hI1, -, hz, hle⟩ := step_ok hI (by omega) op
  obtain ⟨-, hu, hw, hr, hd⟩ := hI.2.2.2
  obtain ⟨-, hu1, hw1, hr1, hd1⟩ := hI1.2.2.2
  have hfreed : (run w0 ops).owners = 0 → (run w0 ops).observers = 0 →
      (step (run w0 ops) op).owners = 0 ∧ (step (run w0 ops) op).observers = 0 := by
    intro h0 h1
    have hm := step_machine_of_no_handle hI h0 h1 op
    have hz1 := hz h0
    refine ⟨hz1, ?_⟩
    have e : ((step (run w0 ops) op).m.cb a).weak_cnt_ = ((run w0 ops).m.cb a).weak_cnt_ := by
      rw [hm]
    rw [hw, hw1, h0, h1, hz1] at e
    simpa using e
  rw [hu, hw, hu1, hw1, hr, hr1, hd, hd1]
  refine ⟨rfl, ?_, hz, ?_, ?_, ?_, ?_⟩
  · by_cases h0 : (run w0 ops).owners = 0
    · simp [h0, hz h0]
    · by_cases h1 : (step (run w0 ops) op).owners = 0
      · have : (run w0 ops).owners = 1 := by omega
        simp [h1, this]
      · simp [h0, h1]
  · by_cases h0 : (run w0 ops).owners = 0
    · simp [h0]
    · have : 0 < (run w0 ops).owners := by omega
      simp [h0, this]
  · by_cases h0 : (run w0 ops).owners = 0
    · by_cases h1 : (run w0 ops).observers = 0
      · obtain ⟨hz1, hz2⟩ := hfreed h0 h1
        simp [h0, h1, hz1, hz2]
      · by_cases h2 : (step (run w0 ops) op).observers = 0
        · simp [h0, h1, h2, hz h0]
        · simp [h0, h1, h2, hz h0]
    · have hp : 0 < (run w0 ops).owners := by omega
      by_cases h1 : (step (run w0 ops) op).owners = 0
      · by_cases h2 : (step (run w0 ops) op).observers = 0
        · simp [h0, hp, h1, h2]
        · simp [h0, hp, h1, h2]
      · have hp1 : 0 < (step (run w0 ops) op).owners := by omega
        simp [h0, hp, h1, hp1]
  · intro hw0
    by_contra hne
    have : 0 < (step (run w0 ops) op).owners := by omega
    simp [this] at hw0
  · intro hdel
    have h01 : (run w0 ops).owners = 0 ∧ (run w0 ops).observers = 0 := by
      by_contra hne
      simp [hne] at hdel
    refine ⟨?_, ?_, step_machine_of_no_handle hI h01.1 h01.2 op⟩
    · intro h hh
      rcases hI.2.1 h hh with rfl | rfl
      · have := World.owners_pos_of_mem hh hI.1
        omega
      · rfl
    · intro x hx
      rcases hI.2.2.1 x hx with rfl | rfl
      · have := World.observers_pos_of_mem hx hI.1
        omega
      · rfl

/-- Witness for C7: with `A`, its copy `B` and a weak handle `W` alive, destroying `A`
runs nothing, destroying `B` afterwards runs `do_release` once, and the reset of `W`
then frees the block once. -/
theorem lifetime_invariant_witness :
    (run World.sample [Op.shared_copy 0, Op.weak_from_shared 1, Op.shared_destroy 0]).m.releases
      1000 = 0 ∧
    (step (run World.sample [Op.shared_copy 0, Op.weak_from_shared 1, Op.shared_destroy 0])
      (Op.shared_destroy 0)).m.releases 1000 = 1 ∧
    (step (run World.sample [Op.shared_copy 0, Op.weak_from_shared 1, Op.shared_destroy 0,
      Op.shared_destroy 0]) (Op.weak_reset 0)).m.deletes 1000 = 1 := by
  have h1 := lifetime_invariant 1000 1024 World.sample World.sample_fresh
    [Op.shared_copy 0, Op.weak_from_shared 1, Op.shared_destroy 0] (Op.shared_destroy 0)
    (by decide)
  have h2 := lifetime_invariant 1000 1024 World.sample World.sample_fresh
    [Op.shared_copy 0, Op.weak_from_shared 1, Op.shared_destroy 0, Op.shared_destroy 0]
    (Op.weak_reset 0) (by decide)
  refine ⟨h1.1.trans (by decide), h1.2.1.trans (by decide), h2.2.2.2.2.1.trans (by decide)⟩

end invariants

section self_reference

/-- C9 (evaluation of the code): in-place construction, from one constructor argument,
of an object with the self-reference capability binds `weak_this_` to the new block and
leaves `weak_cnt_` at 1.  With one external weak handle `W` (`weak_cnt_` 2), resetting the only shared handle
runs `do_release`, whose destruction of `weak_this_` releases a weak reference, and then
`delete this`: the block is freed with `weak_cnt_` 0 while `W` still refers to it.
Without an external weak handle the block is freed inside `do_release` and `weak_cnt_`
is decremented once more afterwards, wrapping to `2 ^ 64 - 1`. -/
theorem esft_block_freed_under_weak_handle :
    Machine.sample_esft.weak_this_ 1024 = some { cb_ := 1000, ptr_ := 1024 } ∧
    (Machine.sample_esft.cb 1000).weak_cnt_ = 1 ∧
    (weak_ptr.from_shared Machine.sample_esft { cb_ := 1000, ptr_ := 1024 }).2 =
      { cb_ := 1000, ptr_ := 1024 } ∧
    ((weak_ptr.from_shared Machine.sample_esft { cb_ := 1000, ptr_ := 1024 }).1.cb 1000).weak_cnt_
      = 2 ∧
    (shared_ptr.reset (weak_ptr.from_shared Machine.sample_esft { cb_ := 1000, ptr_ := 1024 }).1
      { cb_ := 1000, ptr_ := 1024 }).1.trace =
        [Event.malloc 1000, Event.do_release 1000, Event.delete_this 1000] ∧
    ((shared_ptr.reset (weak_ptr.from_shared Machine.sample_esft { cb_ := 1000, ptr_ := 1024 }).1
      { cb_ := 1000, ptr_ := 1024 }).1.cb 1000).weak_cnt_ = 0 ∧
    (control_block.do_release (Machine.sample_esft.set_use 1000 0) 1000).trace =
      [Event.malloc 1000, Event.do_release 1000, Event.delete_this 1000] ∧
    (shared_ptr.reset Machine.sample_esft { cb_ := 1000, ptr_ := 1024 }).1.trace =
      [Event.malloc 1000, Event.do_release 1000, Event.delete_this 1000] ∧
    ((shared_ptr.reset Machine.sample_esft { cb_ := 1000, ptr_ := 1024 }).1.cb 1000).weak_cnt_ =
      2 ^ 64 - 1 := by
  decide

/-- Binding the embedded handle changes no counter of any block. -/
theorem enable_shared_from_this_with_cb (m : Machine) (cb ptr : Nat) :
    (shared_ptr.enable_shared_from_this_with m cb ptr).cb = m.cb := by
  unfold shared_ptr.enable_shared_from_this_with
  split
  · rfl
  · split <;> rfl

/-- C10 (counterexample): the weak handle `W = {1000, 1024}` is bound to block 1000,
whose `use_cnt_` has dropped to 0 while the block is still allocated; `assign` rebinds
it to the pointer 2048 and the block 2000. -/
theorem assign_rebinds_expired :
    (Machine.sample_expired.cb 1000).use_cnt_ = 0 ∧
    Machine.sample_expired.deletes 1000 = 0 ∧
    weak_ptr.assign Machine.sample_expired { cb_ := 1000, ptr_ := 1024 } 2048 2000 =
      { cb_ := 2000, ptr_ := 2048 } ∧
    weak_ptr.assign Machine.sample_expired { cb_ := 1000, ptr_ := 1024 } 2048 2000 ≠
      { cb_ := 1000, ptr_ := 1024 } := by
  decide

/-- The guard of `weak_ptr::assign`, spelled out. -/
theorem weak_assign_eq (m : Machine) (w : weak_ptr) (ptr cb : Nat) :
    weak_ptr.assign m w ptr cb =
      (if w.cb_ ≠ 0 ∧ 0 < (m.cb w.cb_).use_cnt_ then w else { cb_ := cb, ptr_ := ptr }) := by
  unfold weak_ptr.assign weak_ptr.use_count control_block.use_count
  by_cases hc : w.cb_ ≠ 0
  · by_cases hu : (m.cb w.cb_).use_cnt_ = 0
    · simp [hc, hu]
    · have hpos : 0 < (m.cb w.cb_).use_cnt_ := Nat.pos_of_ne_zero hu
      simp [hc, hu, hpos]
  · simp [hc]

/-- An embedded handle bound to a block with a live owner survives
`enable_shared_from_this_with`. -/
theorem enable_shared_from_this_with_keep (m : Machine) (w : weak_ptr) (cb ptr : Nat)
    (hw : m.weak_this_ ptr = some w) (hc : w.cb_ ≠ 0) (hu : 0 < (m.cb w.cb_).use_cnt_) :
    (shared_ptr.enable_shared_from_this_with m cb ptr).weak_this_ ptr = some w := by
  unfold shared_ptr.enable_shared_from_this_with
  rw [hw]
  by_cases hp : ptr ≠ 0
  · simp only [if_pos hp, Function.update_same]
    rw [weak_assign_eq, if_pos ⟨hc, hu⟩]
  · simp only [if_neg hp]
    exact hw

/-- C10 (amended): `weak_ptr::assign` keeps the handle exactly when it is bound to a
control block whose `use_cnt_` is positive, and otherwise (handle never bound, or bound
to a block whose `use_cnt_` is 0) sets pointer and control block to the arguments.  So
when `enable_shared_from_this_with` runs for an object whose embedded handle is bound
to a block with a live owner, as in a further adoption of the object, the embedded
handle is unchanged. -/
theorem late_bind_guard (m : Machine) (w : weak_ptr) (ptr cb : Nat) :
    weak_ptr.assign m w ptr cb =
      (if w.cb_ ≠ 0 ∧ 0 < (m.cb w.cb_).use_cnt_ then w else { cb_ := cb, ptr_ := ptr }) ∧
    (m.weak_this_ ptr = some w → w.cb_ ≠ 0 → 0 < (m.cb w.cb_).use_cnt_ →
      (shared_ptr.enable_shared_from_this_with m cb ptr).weak_this_ ptr = some w ∧
      ∀ blk, (shared_ptr.adopt m blk ptr).1.weak_this_ ptr = some w) := by
  refine ⟨weak_assign_eq m w ptr cb, ?_⟩
  intro hw hc hu
  refine ⟨enable_shared_from_this_with_keep m w cb ptr hw hc hu, ?_⟩
  intro blk
  unfold shared_ptr.adopt
  by_cases hp : ptr ≠ 0
  · simp only [if_pos hp]
    refine enable_shared_from_this_with_keep
      { m with cb := Function.update m.cb blk { use_cnt_ := 1, weak_cnt_ := 1, object := ptr } }
      w blk ptr hw hc ?_
    by_cases hb : w.cb_ = blk
    · rw [hb]
      simp only [Function.update_same]
      exact Nat.one_pos
    · simp only [Function.update_noteq hb]
      exact hu
  · simp only [if_neg hp]
    exact hw

/-- Witness for C10 (amended): the embedded handle of the object constructed in place
at block 1000 is bound to that block, which has a live owner; adopting the object
again through a new block at 2000 leaves the embedded handle bound to block 1000. -/
theorem late_bind_guard_witness :
    Machine.sample_esft.weak_this_ 1024 = some { cb_ := 1000, ptr_ := 1024 } ∧
    (shared_ptr.adopt Machine.sample_esft 2000 1024).1.weak_this_ 1024 =
      some { cb_ := 1000, ptr_ := 1024 } := by
  have h := (late_bind_guard Machine.sample_esft { cb_ := 1000, ptr_ := 1024 } 1024 1000).2
    (by decide) (by decide) (by decide)
  exact ⟨by decide, h.2 2000⟩

end self_reference

section creation_and_surface

/-- The two outcomes of `weak_ptr::lock`, spelled out. -/
theorem lock_eq (m : Machine) (w : weak_ptr) :
    weak_ptr.lock m w =
      (if w.cb_ ≠ 0 ∧ 0 < (m.cb w.cb_).use_cnt_ then
        Except.ok (m.set_use w.cb_ (size_inc (m.cb w.cb_).use_cnt_),
          { cb_ := w.cb_, ptr_ := w.ptr_ })
      else
        Except.ok (m, shared_ptr.empty)) := by
  by_cases hc : w.cb_ ≠ 0 ∧ 0 < (m.cb w.cb_).use_cnt_
  · have hne : (m.cb w.cb_).use_cnt_ ≠ 0 := Nat.pos_iff_ne_zero.mp hc.2
    have hc2 : w.cb_ ≠ 0 ∧ control_block.use_count m w.cb_ > 0 := hc
    rw [if_pos hc]
    unfold weak_ptr.lock
    rw [if_pos hc2]
    simp [shared_ptr.from_weak, shared_ptr.do_add_use, control_block.use_add, hc.1, hne]
  · have hc2 : ¬ (w.cb_ ≠ 0 ∧ control_block.use_count m w.cb_ > 0) := hc
    rw [if_neg hc]
    unfold weak_ptr.lock
    rw [if_neg hc2]

/-- The construction of the block logs nothing. -/
theorem construct_trace (m : Machine) (mem : Nat) (init : Embedded) :
    (control_block_impl.construct m mem init).trace = m.trace := by
  unfold control_block_impl.construct
  cases init with
  | absent => rfl
  | fresh => rfl
  | copied src =>
    dsimp only
    split
    · rfl
    · unfold weak_ptr.copy control_block.weak_add
      dsimp only
      split <;> rfl
  | moved src =>
    dsimp only
    split <;> rfl

/-- In-place construction of an object whose embedded handle is default-constructed
binds that handle to the new block and to the address of the object. -/
theorem make_shared_binds (m : Machine) (mem : Nat) (hmem : mem ≠ 0) :
    (make_shared m (Pack.values mem true Embedded.fresh)).2 =
        Except.ok { cb_ := mem, ptr_ := control_block_impl.object mem } ∧
      (make_shared m (Pack.values mem true Embedded.fresh)).1.weak_this_
          (control_block_impl.object mem) =
        some { cb_ := mem, ptr_ := control_block_impl.object mem } := by
  have hobj : control_block_impl.object mem ≠ 0 := by
    unfold control_block_impl.object
    omega
  simp [make_shared, shared_ptr.emplace, control_block_impl.construct, hmem,
    raii_guard.make_defer, raii_guard.dismiss, raii_guard.destroy,
    shared_ptr.enable_shared_from_this_with, hobj, weak_ptr.assign, weak_ptr.use_count]

/-- Adoption of an object whose embedded handle is still unbound binds it to the new
block and to the adopted pointer. -/
theorem adopt_binds (m : Machine) (blk ptr : Nat) (hptr : ptr ≠ 0)
    (hw : m.weak_this_ ptr = some { cb_ := 0, ptr_ := 0 }) :
    (shared_ptr.adopt m blk ptr).2 = { cb_ := blk, ptr_ := ptr } ∧
      (shared_ptr.adopt m blk ptr).1.weak_this_ ptr = some { cb_ := blk, ptr_ := ptr } := by
  simp [shared_ptr.adopt, hptr, shared_ptr.enable_shared_from_this_with, hw, weak_ptr.assign,
    weak_ptr.use_count]

/-- The function `shared_from_this()` is `lock()` on the embedded handle `w`: bound to a
block with positive `use_cnt_` it returns the handle of that block and of the pointer
of `w` and increments `use_cnt_`; otherwise it returns the empty handle and the machine
unchanged. -/
theorem shared_from_this_eq (m : Machine) (w : weak_ptr) :
    enable_shared_from_this.shared_from_this m w =
      (if w.cb_ ≠ 0 ∧ 0 < (m.cb w.cb_).use_cnt_ then
        Except.ok (m.set_use w.cb_ (size_inc (m.cb w.cb_).use_cnt_),
          { cb_ := w.cb_, ptr_ := w.ptr_ })
      else
        Except.ok (m, shared_ptr.empty)) :=
  lock_eq m w

/-- C11 (evaluation of the code): `a = make_shared<T>(1)` constructs an object with the
self-reference capability at 1024 in the block at 1000 and binds its embedded handle to
`{1000, 1024}`.  `b = make_shared<T>(*a)` constructs a copy of the object at 2024 in
the block at 2000: the copy constructor copies the embedded handle (`weak_cnt_` of
block 1000 becomes 2), and the late bind is skipped because that handle reports a
positive `use_count()`.  So `b` owns the object at 2024 with `use_cnt_` 1, but
`shared_from_this()` on that object returns the handle `{1000, 1024}`: the block and
the pointer of `a`, with `use_cnt_` of block 1000 raised to 2 and that of block 2000
still 1. -/
theorem shared_from_this_of_copied_object :
    Machine.sample_esft.weak_this_ 1024 = some { cb_ := 1000, ptr_ := 1024 } ∧
    (make_shared Machine.sample_esft (Pack.values 2000 true (Embedded.copied 1024))).2 =
      Except.ok { cb_ := 2000, ptr_ := 2024 } ∧
    Machine.sample_copied.weak_this_ 2024 = some { cb_ := 1000, ptr_ := 1024 } ∧
    (Machine.sample_copied.cb 1000).weak_cnt_ = 2 ∧
    (Machine.sample_copied.cb 1000).use_cnt_ = 1 ∧
    (Machine.sample_copied.cb 2000).use_cnt_ = 1 ∧
    shared_ptr.use_count Machine.sample_copied { cb_ := 2000, ptr_ := 2024 } = 1 ∧
    enable_shared_from_this.shared_from_this Machine.sample_copied
        { cb_ := 1000, ptr_ := 1024 } =
      Except.ok (Machine.sample_copied.set_use 1000 2, { cb_ := 1000, ptr_ := 1024 }) ∧
    ((Machine.sample_copied.set_use 1000 2).cb 1000).use_cnt_ = 2 ∧
    ((Machine.sample_copied.set_use 1000 2).cb 2000).use_cnt_ = 1 := by
  refine ⟨by decide, rfl, by decide, by decide, by decide, by decide, by decide, ?_,
    by decide, by decide⟩
  rw [shared_from_this_eq, if_pos (by decide)]
  rfl

/-- C12: the move constructors of `shared_ptr` and `weak_ptr` are total functions of the
source handle alone: the destination has the source's control block and pointer (and
reports the same `use_count()`), the source is left with both fields null, and no
block is read or written.  As a handle operation, a move leaves the whole machine
(every `use_cnt_` and `weak_cnt_`) and the numbers of non-empty shared and weak handles
unchanged. -/
theorem move_contract (m : Machine) (h : shared_ptr) (x : weak_ptr) (w : World) (i j : Nat) :
    (shared_ptr.move h).1 = { cb_ := h.cb_, ptr_ := h.ptr_ } ∧
    (shared_ptr.move h).2 = { cb_ := 0, ptr_ := 0 } ∧
    shared_ptr.to_bool (shared_ptr.move h).2 = false ∧
    shared_ptr.use_count m (shared_ptr.move h).1 = shared_ptr.use_count m h ∧
    (weak_ptr.move x).1 = { cb_ := x.cb_, ptr_ := x.ptr_ } ∧
    (weak_ptr.move x).2 = { cb_ := 0, ptr_ := 0 } ∧
    weak_ptr.use_count m (weak_ptr.move x).1 = weak_ptr.use_count m x ∧
    (step w (Op.shared_move i)).m = w.m ∧
    (step w (Op.shared_move i)).owners = w.owners ∧
    (step w (Op.shared_move i)).observers = w.observers ∧
    (step w (Op.weak_move j)).m = w.m ∧
    (step w (Op.weak_move j)).owners = w.owners ∧
    (step w (Op.weak_move j)).observers = w.observers := by
  refine ⟨rfl, rfl, tb_empty, rfl, rfl, rfl, rfl, ?_, ?_, ?_, ?_, ?_, ?_⟩
  · simp only [step]
    cases w.shared[i]? <;> rfl
  · simp only [step]
    cases hi : w.shared[i]? with
    | none => rfl
    | some g =>
      have e1 := countP_set_of_getElem? shared_ptr.to_bool w.shared i { cb_ := 0, ptr_ := 0 } g hi
      have hmv : shared_ptr.move g = (g, { cb_ := 0, ptr_ := 0 }) := rfl
      simp only [hmv, World.owners_mk, countP_snoc]
      simp only [tb_empty, Bool.false_eq_true, if_false, Nat.add_zero] at e1
      exact e1
  · simp only [step]
    cases w.shared[i]? <;> rfl
  · simp only [step]
    cases w.weak[j]? <;> rfl
  · simp only [step]
    cases w.weak[j]? <;> rfl
  · simp only [step]
    cases hj : w.weak[j]? with
    | none => rfl
    | some y =>
      have e1 := countP_set_of_getElem? weak_ptr.bound w.weak j { cb_ := 0, ptr_ := 0 } y hj
      have hmv : weak_ptr.move y = (y, { cb_ := 0, ptr_ := 0 }) := rfl
      simp only [hmv, World.observers_mk, countP_snoc]
      simp only [wb_empty, Bool.false_eq_true, if_false, Nat.add_zero] at e1
      exact e1

/-- The counter `use_cnt_` of the block after `use_release`. -/
theorem use_release_use_same (m : Machine) (a : Nat) :
    ((control_block.use_release m a).cb a).use_cnt_ = size_dec (m.cb a).use_cnt_ := by
  unfold control_block.use_release
  simp only [Machine.set_use_cb_same]
  split
  · rename_i h0
    have hu := do_release_use (m.set_use a (size_dec (m.cb a).use_cnt_)) a a
    simp only [Machine.set_use_cb_same] at hu
    split
    · simp [hu]
    · simp [hu]
  · simp

/-- The counter `use_cnt_` of every other block is untouched by `use_release`. -/
theorem use_release_use_other (m : Machine) {a b : Nat} (hb : b ≠ a) :
    ((control_block.use_release m a).cb b).use_cnt_ = (m.cb b).use_cnt_ := by
  unfold control_block.use_release
  simp only [Machine.set_use_cb_same]
  split
  · have hu := do_release_use (m.set_use a (size_dec (m.cb a).use_cnt_)) a b
    rw [Machine.set_use_cb_other m _ hb] at hu
    split
    · simp [Machine.set_weak_cb_other _ _ hb, hu]
    · simp [Machine.set_weak_cb_other _ _ hb, hu]
  · exact congrArg control_block.use_cnt_ (Machine.set_use_cb_other m _ hb)

/-- The number of `do_release` runs on the block grows by one exactly when
`use_release` brings `use_cnt_` to 0. -/
theorem use_release_releases (m : Machine) (a : Nat) :
    (control_block.use_release m a).releases a =
      m.releases a + (if size_dec (m.cb a).use_cnt_ = 0 then 1 else 0) := by
  unfold control_block.use_release
  simp only [Machine.set_use_cb_same]
  by_cases h0 : size_dec (m.cb a).use_cnt_ = 0
  · have hr := do_release_releases (m.set_use a (size_dec (m.cb a).use_cnt_)) a
    simp only [Machine.releases, Machine.set_use_trace] at hr
    simp only [h0, if_true]
    split
    · simp [Machine.releases, ← h0, hr]
    · simp [Machine.releases, ← h0, hr]
  · simp [h0, Machine.releases]

/-- C13: `shared_ptr::reset` leaves the handle empty (`cb_` null, boolean test false,
`use_count()` 0).  On a non-empty handle it nulls both fields and releases exactly one
strong reference of the handle's block: `use_cnt_` of that block is decremented once (it is one less for a
positive counter), `use_cnt_` of every other block is unchanged, and `do_release` runs
once more exactly when the decremented `use_cnt_` is 0; on an empty handle the machine
is unchanged.  A second `reset`, and likewise the destructor, then changes neither the
handle nor the machine, hence no counter. -/
theorem reset_idempotent (m : Machine) (h : shared_ptr) :
    (shared_ptr.reset m h).2.cb_ = 0 ∧
    shared_ptr.to_bool (shared_ptr.reset m h).2 = false ∧
    shared_ptr.use_count (shared_ptr.reset m h).1 (shared_ptr.reset m h).2 = 0 ∧
    (shared_ptr.reset m h).1 =
      (if h.cb_ ≠ 0 then control_block.use_release m h.cb_ else m) ∧
    (if h.cb_ ≠ 0 then
      (shared_ptr.reset m h).2 = { cb_ := 0, ptr_ := 0 } ∧
      ((shared_ptr.reset m h).1.cb h.cb_).use_cnt_ = size_dec (m.cb h.cb_).use_cnt_ ∧
      (0 < (m.cb h.cb_).use_cnt_ → (m.cb h.cb_).use_cnt_ < 2 ^ 64 →
        ((shared_ptr.reset m h).1.cb h.cb_).use_cnt_ + 1 = (m.cb h.cb_).use_cnt_) ∧
      (∀ b, b ≠ h.cb_ → ((shared_ptr.reset m h).1.cb b).use_cnt_ = (m.cb b).use_cnt_) ∧
      (shared_ptr.reset m h).1.releases h.cb_ =
        m.releases h.cb_ + (if size_dec (m.cb h.cb_).use_cnt_ = 0 then 1 else 0)
    else
      shared_ptr.reset m h = (m, h)) ∧
    shared_ptr.reset (shared_ptr.reset m h).1 (shared_ptr.reset m h).2 = shared_ptr.reset m h ∧
    shared_ptr.destroy (shared_ptr.reset m h).1 (shared_ptr.reset m h).2 =
      (shared_ptr.reset m h).1 ∧
    (∀ b, ((shared_ptr.reset (shared_ptr.reset m h).1 (shared_ptr.reset m h).2).1.cb b) =
      ((shared_ptr.reset m h).1.cb b)) := by
  by_cases hc : h.cb_ ≠ 0
  · have e : shared_ptr.reset m h =
        (control_block.use_release m h.cb_, { cb_ := 0, ptr_ := 0 }) := by
      simp [shared_ptr.reset, hc]
    rw [e, if_pos hc, if_pos hc]
    refine ⟨rfl, tb_empty, by simp [shared_ptr.use_count], rfl, ⟨rfl,
      use_release_use_same m h.cb_, ?_, fun b hb => use_release_use_other m hb,
      use_release_releases m h.cb_⟩, ?_, ?_, ?_⟩
    · intro h0 hlt
      show ((control_block.use_release m h.cb_).cb h.cb_).use_cnt_ + 1 = (m.cb h.cb_).use_cnt_
      rw [use_release_use_same, size_dec_of_pos h0 hlt]
      omega
    · simp [shared_ptr.reset]
    · simp [shared_ptr.destroy, shared_ptr.reset]
    · intro b
      simp [shared_ptr.reset]
  · have h0 : h.cb_ = 0 := by
      by_contra hne
      exact hc hne
    have e : shared_ptr.reset m h = (m, h) := by
      simp [shared_ptr.reset, h0]
    rw [e, if_neg hc, if_neg hc]
    refine ⟨h0, by simp [shared_ptr.to_bool, h0], by simp [shared_ptr.use_count, h0],
      rfl, rfl, e, ?_, ?_⟩
    · simp [shared_ptr.destroy, e]
    · intro b
      rw [e]

/-- Witness for C13: with `A` and its copy `B` on the block at 1000 (`use_cnt_` 2), the
reset of `A` leaves `use_cnt_` 1 and no run of `do_release`; a second reset of the now
empty `A` leaves the block as it is. -/
theorem reset_idempotent_witness :
    ((shared_ptr.reset (run World.sample [Op.shared_copy 0]).m
      { cb_ := 1000, ptr_ := 1024 }).1.cb 1000).use_cnt_ + 1 = 2 ∧
    (shared_ptr.reset (run World.sample [Op.shared_copy 0]).m
      { cb_ := 1000, ptr_ := 1024 }).1.releases 1000 = 0 ∧
    ((shared_ptr.reset
        (shared_ptr.reset (run World.sample [Op.shared_copy 0]).m
          { cb_ := 1000, ptr_ := 1024 }).1
        (shared_ptr.reset (run World.sample [Op.shared_copy 0]).m
          { cb_ := 1000, ptr_ := 1024 }).2).1.cb 1000).use_cnt_ = 1 := by
  obtain ⟨-, -, -, -, h5, -, -, h8⟩ :=
    reset_idempotent (run World.sample [Op.shared_copy 0]).m { cb_ := 1000, ptr_ := 1024 }
  rw [if_pos (by decide)] at h5
  obtain ⟨-, -, h52, -, h54⟩ := h5
  refine ⟨h52 (by decide) (by decide), h54.trans (by decide), ?_⟩
  rw [h8 1000]
  decide

/-- Binding the embedded handle logs nothing. -/
theorem enable_shared_from_this_with_trace (m : Machine) (cb ptr : Nat) :
    (shared_ptr.enable_shared_from_this_with m cb ptr).trace = m.trace := by
  unfold shared_ptr.enable_shared_from_this_with
  split
  · rfl
  · split <;> rfl

/-- In-place construction from constructor arguments (the embedded handle absent or
default-constructed) and adoption of a non-null pointer return a non-empty handle on
the new block, whose `use_cnt_` and `weak_cnt_` are both 1; adoption of a null pointer
returns the empty handle and leaves the machine unchanged. -/
theorem creation_facts (m : Machine) (mem blk ptr : Nat) (init : Embedded)
    (hinit : init = Embedded.absent ∨ init = Embedded.fresh) (hmem : mem ≠ 0)
    (hblk : blk ≠ 0) (hptr : ptr ≠ 0) :
    (make_shared m (Pack.values mem true init)).2 =
      Except.ok { cb_ := mem, ptr_ := control_block_impl.object mem } ∧
    shared_ptr.to_bool { cb_ := mem, ptr_ := control_block_impl.object mem } = true ∧
    ((make_shared m (Pack.values mem true init)).1.cb mem).use_cnt_ = 1 ∧
    ((make_shared m (Pack.values mem true init)).1.cb mem).weak_cnt_ = 1 ∧
    (shared_ptr.adopt m blk ptr).2 = { cb_ := blk, ptr_ := ptr } ∧
    shared_ptr.to_bool (shared_ptr.adopt m blk ptr).2 = true ∧
    ((shared_ptr.adopt m blk ptr).1.cb blk).use_cnt_ = 1 ∧
    ((shared_ptr.adopt m blk ptr).1.cb blk).weak_cnt_ = 1 ∧
    shared_ptr.adopt m blk 0 = (m, shared_ptr.empty) := by
  have hmk : (make_shared m (Pack.values mem true init)).1.cb mem =
      { use_cnt_ := 1, weak_cnt_ := 1, object := control_block_impl.object mem } := by
    rcases hinit with rfl | rfl <;>
      simp [make_shared, shared_ptr.emplace, control_block_impl.construct, hmem,
        raii_guard.make_defer, raii_guard.dismiss, raii_guard.destroy,
        enable_shared_from_this_with_cb]
  have had : (shared_ptr.adopt m blk ptr).1.cb blk =
      { use_cnt_ := 1, weak_cnt_ := 1, object := ptr } := by
    simp [shared_ptr.adopt, hptr, enable_shared_from_this_with_cb]
  have had2 : (shared_ptr.adopt m blk ptr).2 = { cb_ := blk, ptr_ := ptr } := by
    simp [shared_ptr.adopt, hptr]
  refine ⟨?_, tb_live _ hmem, by rw [hmk], by rw [hmk], had2, ?_, by rw [had], by rw [had], ?_⟩
  · simp [make_shared, shared_ptr.emplace, hmem, raii_guard.make_defer, raii_guard.dismiss]
  · rw [had2]
    exact tb_live _ hblk
  · simp [shared_ptr.adopt]

/-- C14 (evaluation of the code): `make_shared` with an empty argument pack selects the
default constructor: on every machine it returns the empty handle (boolean test false,
`use_count()` 0) and leaves the machine unchanged, so nothing is allocated and no
control block exists.  With one constructor argument it allocates the block at 1000,
logs the `malloc`, and returns the non-empty handle `{1000, 1024}` whose block has
`use_cnt_` 1 and `weak_cnt_` 1. -/
theorem make_shared_empty_pack (m : Machine) :
    make_shared m Pack.empty = (m, Except.ok shared_ptr.empty) ∧
    shared_ptr.to_bool shared_ptr.empty = false ∧
    shared_ptr.use_count (make_shared m Pack.empty).1 shared_ptr.empty = 0 ∧
    (make_shared m Pack.empty).1.trace = m.trace ∧
    (make_shared Machine.init (Pack.values 1000 true Embedded.absent)).2 =
      Except.ok { cb_ := 1000, ptr_ := 1024 } ∧
    shared_ptr.to_bool { cb_ := 1000, ptr_ := 1024 } = true ∧
    (make_shared Machine.init (Pack.values 1000 true Embedded.absent)).1.trace =
      [Event.malloc 1000] ∧
    ((make_shared Machine.init (Pack.values 1000 true Embedded.absent)).1.cb 1000).use_cnt_ = 1 ∧
    ((make_shared Machine.init (Pack.values 1000 true Embedded.absent)).1.cb 1000).weak_cnt_ = 1 := by
  refine ⟨rfl, tb_empty, ?_, rfl, rfl, by decide, by decide, by decide, by decide⟩
  simp [shared_ptr.use_count, shared_ptr.empty]

/-- C15: with the allocation at `mem` obtained, a failing constructor of the managed
object makes in-place construction return the error with a machine that differs from
the old one only by the events `malloc mem`, `free mem` (the guard frees the allocation
exactly once, no block is stored, no handle is returned); a succeeding constructor
returns a handle and logs `malloc mem` only, so the dismissed guard frees nothing.  A
failed allocation returns `bad_alloc` and leaves the machine unchanged. -/
theorem emplace_failure_atomic (m : Machine) (mem : Nat) (init : Embedded) (hmem : mem ≠ 0) :
    (shared_ptr.emplace m mem false init).2 = Except.error Exn.ctor_failure ∧
    (shared_ptr.emplace m mem false init).1.trace =
      m.trace ++ [Event.malloc mem, Event.free mem] ∧
    (shared_ptr.emplace m mem false init).1.trace.count (Event.free mem) =
      m.trace.count (Event.free mem) + 1 ∧
    (shared_ptr.emplace m mem false init).1.cb = m.cb ∧
    (shared_ptr.emplace m mem false init).1.weak_this_ = m.weak_this_ ∧
    (∃ h, (shared_ptr.emplace m mem true init).2 = Except.ok h) ∧
    (shared_ptr.emplace m mem true init).1.trace = m.trace ++ [Event.malloc mem] ∧
    (shared_ptr.emplace m mem true init).1.trace.count (Event.free mem) =
      m.trace.count (Event.free mem) ∧
    shared_ptr.emplace m 0 false init = (m, Except.error Exn.bad_alloc) ∧
    shared_ptr.emplace m 0 true init = (m, Except.error Exn.bad_alloc) := by
  have hf : shared_ptr.emplace m mem false init =
      ((m.log (Event.malloc mem)).log (Event.free mem), Except.error Exn.ctor_failure) := by
    simp [shared_ptr.emplace, hmem, raii_guard.make_defer, raii_guard.destroy]
  have ht : (shared_ptr.emplace m mem true init).1.trace = m.trace ++ [Event.malloc mem] := by
    simp only [shared_ptr.emplace, hmem, if_false, if_true, raii_guard.make_defer,
      raii_guard.dismiss, raii_guard.destroy, Bool.false_eq_true]
    rw [enable_shared_from_this_with_trace, construct_trace]
    rfl
  refine ⟨by rw [hf], by rw [hf]; simp, by rw [hf]; simp, by rw [hf]; rfl, by rw [hf]; rfl,
    ?_, ht, ?_, ?_, ?_⟩
  · simp [shared_ptr.emplace, hmem, raii_guard.make_defer, raii_guard.dismiss]
  · rw [ht]
    simp
  · simp [shared_ptr.emplace]
  · simp [shared_ptr.emplace]

/-- Witness for C15: a failing constructor in the allocation at 1000. -/
theorem emplace_failure_atomic_witness :
    (shared_ptr.emplace Machine.init 1000 false Embedded.absent).2 =
      Except.error Exn.ctor_failure ∧
    (shared_ptr.emplace Machine.init 1000 false Embedded.absent).1.trace =
      [Event.malloc 1000, Event.free 1000] := by
  obtain ⟨h1, h2, -⟩ := emplace_failure_atomic Machine.init 1000 Embedded.absent (by decide)
  exact ⟨h1, h2⟩

/-- C18: a `dynamic_pointer_cast` whose `dynamic_cast` yields null returns normally,
with the empty shared handle and the machine unchanged: no `use_cnt_` and no
`weak_cnt_` is changed, whatever the two-argument constructor of the other branch
does. -/
theorem dynamic_cast_failure
    (aliasing : Machine → shared_ptr → Nat → Except Exn (Machine × shared_ptr))
    (m : Machine) (frm : shared_ptr) :
    dynamic_pointer_cast aliasing m frm 0 = Except.ok (m, shared_ptr.empty) ∧
    shared_ptr.to_bool shared_ptr.empty = false ∧
    shared_ptr.use_count m shared_ptr.empty = 0 ∧
    shared_ptr.use_count m frm =
      (if frm.cb_ ≠ 0 then (m.cb frm.cb_).use_cnt_ else 0) := by
  refine ⟨?_, tb_empty, ?_, rfl⟩
  · simp [dynamic_pointer_cast]
  · simp [shared_ptr.use_count, shared_ptr.empty]

end creation_and_surface

section guard

variable {Func : Type}

/-- Both `dismiss` and being moved from leave the guard disarmed. -/
theorem raii_guard.change_disarms (g : raii_guard Func) (c : raii_guard.Change) :
    (g.change c).active_ = false := by
  cases c <;> simp [raii_guard.change, raii_guard.dismiss, raii_guard.move]

/-- A disarmed guard stays disarmed under any sequence of such operations. -/
theorem raii_guard.changes_inactive (cs : List raii_guard.Change) :
    ∀ (g : raii_guard Func), g.active_ = false →
      (cs.foldl raii_guard.change g).active_ = false := by
  induction cs with
  | nil => exact fun g h => h
  | cons c cs ih => exact fun g _ => ih (g.change c) (raii_guard.change_disarms g c)

/-- A sequence of such operations that contains a `dismiss` ends disarmed. -/
theorem raii_guard.changes_dismissed (cs : List raii_guard.Change) :
    ∀ (g : raii_guard Func), raii_guard.Change.dismiss ∈ cs →
      (cs.foldl raii_guard.change g).active_ = false := by
  induction cs with
  | nil =>
    intro g h
    simp at h
  | cons c cs ih =>
    intro g h
    rcases List.mem_cons.mp h with h1 | h1
    · subst h1
      exact raii_guard.changes_inactive cs _ rfl
    · exact ih (g.change c) h1

/-- Destruction of a disarmed guard invokes nothing. -/
theorem raii_guard.destroy_inactive (g : raii_guard Func) (log : List Func)
    (h : g.active_ = false) : raii_guard.destroy raii_guard.invoke g log = log := by
  simp [raii_guard.destroy, h]

/-- Destruction of an armed guard invokes its callable once. -/
theorem raii_guard.destroy_active (g : raii_guard Func) (log : List Func)
    (h : g.active_ = true) : raii_guard.destroy raii_guard.invoke g log = log ++ [g.func_] := by
  simp [raii_guard.destroy, raii_guard.invoke, h]

/-- C16 (counterexample): the guard constructed from the callable 1 is dismissed and
then move-assigned from the armed guard of the callable 2; it is armed again, and its
destruction invokes a callable (2) once although `dismiss()` was called on it. -/
theorem guard_rearmed_by_move_assign :
    (raii_guard.dismiss (raii_guard.make_defer 1)).active_ = false ∧
    (raii_guard.move_assign raii_guard.invoke false (raii_guard.dismiss (raii_guard.make_defer 1))
      (raii_guard.make_defer 2) ([] : List Nat)).2.1.active_ = true ∧
    raii_guard.destroy raii_guard.invoke
      (raii_guard.move_assign raii_guard.invoke false
        (raii_guard.dismiss (raii_guard.make_defer 1)) (raii_guard.make_defer 2)
        ([] : List Nat)).2.1
      (raii_guard.move_assign raii_guard.invoke false
        (raii_guard.dismiss (raii_guard.make_defer 1)) (raii_guard.make_defer 2)
        ([] : List Nat)).1 = [2] := by
  decide

/-- C16 (amended): a guard constructed from a callable is armed and holds it; the
destruction of an armed guard invokes its callable exactly once, that of a dismissed
guard invokes nothing; `dismiss()` is idempotent; under any sequence of `dismiss()`
calls and of moves out of the guard, a dismissed guard stays disarmed, and a sequence
containing a `dismiss()` ends with a guard whose destruction invokes nothing.  A move
assignment to a dismissed guard invokes nothing and gives it the callable and the armed
flag of the source. -/
theorem guard_lifecycle (f : Func) (g other : raii_guard Func) (log : List Func)
    (cs : List raii_guard.Change) :
    (raii_guard.make_defer f).active_ = true ∧
    (raii_guard.make_defer f).func_ = f ∧
    raii_guard.destroy raii_guard.invoke (raii_guard.make_defer f) log = log ++ [f] ∧
    (g.active_ = true → raii_guard.destroy raii_guard.invoke g log = log ++ [g.func_]) ∧
    (g.dismiss).active_ = false ∧
    (g.dismiss).func_ = g.func_ ∧
    raii_guard.destroy raii_guard.invoke g.dismiss log = log ∧
    g.dismiss.dismiss = g.dismiss ∧
    (cs.foldl raii_guard.change g.dismiss).active_ = false ∧
    raii_guard.destroy raii_guard.invoke (cs.foldl raii_guard.change g.dismiss) log = log ∧
    (raii_guard.Change.dismiss ∈ cs →
      raii_guard.destroy raii_guard.invoke (cs.foldl raii_guard.change g) log = log) ∧
    (raii_guard.move_assign raii_guard.invoke false g.dismiss other log).1 = log ∧
    (raii_guard.move_assign raii_guard.invoke false g.dismiss other log).2.1 =
      { func_ := other.func_, active_ := other.active_ } := by
  have hd : (g.dismiss).active_ = false := rfl
  refine ⟨rfl, rfl, raii_guard.destroy_active _ log rfl,
    fun h => raii_guard.destroy_active g log h, hd, rfl,
    raii_guard.destroy_inactive _ log hd, rfl, raii_guard.changes_inactive cs _ hd,
    raii_guard.destroy_inactive _ log (raii_guard.changes_inactive cs _ hd),
    fun h => raii_guard.destroy_inactive _ log (raii_guard.changes_dismissed cs g h), ?_, rfl⟩
  simp [raii_guard.move_assign, raii_guard.destroy_inactive _ log hd]

/-- Witness for C16 (amended): a guard of the callable 7 that is moved from and then
dismissed invokes nothing at its destruction, while the armed guard invokes 7 once. -/
theorem guard_lifecycle_witness :
    raii_guard.destroy raii_guard.invoke (raii_guard.make_defer 7) ([] : List Nat) = [7] ∧
    raii_guard.destroy raii_guard.invoke
      ([raii_guard.Change.moved_from, raii_guard.Change.dismiss].foldl raii_guard.change
        (raii_guard.make_defer 7)) ([] : List Nat) = [] := by
  obtain ⟨-, -, -, h4, -, -, -, -, -, -, h11, -⟩ :=
    guard_lifecycle 7 (raii_guard.make_defer 7) (raii_guard.make_defer 7) ([] : List Nat)
      [raii_guard.Change.moved_from, raii_guard.Change.dismiss]
  exact ⟨h4 rfl, h11 (by decide)⟩

/-- C17: after the move construction of `D` from `S`, `D` holds the callable and the
armed flag `S` had, and `S` is disarmed.  For an armed `S`, the destruction of `S`
invokes nothing, that of `D` invokes the callable once, and destroying both, in either
order, leaves exactly one invocation in the log. -/
theorem guard_move_fires_once (s : raii_guard Func) (log : List Func) :
    (raii_guard.move s).1.active_ = s.active_ ∧
    (raii_guard.move s).1.func_ = s.func_ ∧
    (raii_guard.move s).2.active_ = false ∧
    raii_guard.destroy raii_guard.invoke (raii_guard.move s).2 log = log ∧
    (s.active_ = true →
      raii_guard.destroy raii_guard.invoke (raii_guard.move s).1 log = log ++ [s.func_] ∧
      raii_guard.destroy raii_guard.invoke (raii_guard.move s).2
        (raii_guard.destroy raii_guard.invoke (raii_guard.move s).1 log) = log ++ [s.func_] ∧
      raii_guard.destroy raii_guard.invoke (raii_guard.move s).1
        (raii_guard.destroy raii_guard.invoke (raii_guard.move s).2 log) = log ++ [s.func_]) := by
  have h2 : (raii_guard.move s).2.active_ = false := rfl
  refine ⟨rfl, rfl, h2, raii_guard.destroy_inactive _ log h2, ?_⟩
  intro ha
  have h1 : (raii_guard.move s).1.active_ = true := ha
  have hf : (raii_guard.move s).1.func_ = s.func_ := rfl
  refine ⟨?_, ?_, ?_⟩
  · rw [raii_guard.destroy_active _ log h1, hf]
  · rw [raii_guard.destroy_inactive _ _ h2, raii_guard.destroy_active _ log h1, hf]
  · rw [raii_guard.destroy_inactive _ log h2, raii_guard.destroy_active _ log h1, hf]

/-- Witness for C17: the armed guard of the callable 7 is moved; destroying source and
destination, in either order, invokes 7 exactly once. -/
theorem guard_move_fires_once_witness :
    raii_guard.destroy raii_guard.invoke (raii_guard.move (raii_guard.make_defer 7)).2
      (raii_guard.destroy raii_guard.invoke (raii_guard.move (raii_guard.make_defer 7)).1
        ([] : List Nat)) = [7] ∧
    raii_guard.destroy raii_guard.invoke (raii_guard.move (raii_guard.make_defer 7)).1
      (raii_guard.destroy raii_guard.invoke (raii_guard.move (raii_guard.make_defer 7)).2
        ([] : List Nat)) = [7] := by
  obtain ⟨-, -, -, -, h⟩ := guard_move_fires_once (raii_guard.make_defer 7) ([] : List Nat)
  exact ⟨(h rfl).2.1, (h rfl).2.2⟩

/-- C20: the move assignment `D = std::move(S)` between distinct guards first destroys
`D`, which invokes the callable of `D` exactly once if `D` was armed and nothing
otherwise; afterwards `D` holds the callable and the former armed flag of `S`, and `S`
is disarmed, so that the later destruction of `S` invokes nothing and that of `D`
invokes the callable of `S` once if `S` was armed and nothing otherwise.  A self move
assignment changes nothing and invokes nothing. -/
theorem guard_move_assign (d s : raii_guard Func) (log : List Func) :
    (raii_guard.move_assign raii_guard.invoke false d s log).1 =
      (if d.active_ then log ++ [d.func_] else log) ∧
    (raii_guard.move_assign raii_guard.invoke false d s log).2.1 =
      { func_ := s.func_, active_ := s.active_ } ∧
    (raii_guard.move_assign raii_guard.invoke false d s log).2.2.active_ = false ∧
    raii_guard.destroy raii_guard.invoke
      (raii_guard.move_assign raii_guard.invoke false d s log).2.2
      (raii_guard.move_assign raii_guard.invoke false d s log).1 =
        (raii_guard.move_assign raii_guard.invoke false d s log).1 ∧
    raii_guard.destroy raii_guard.invoke
      (raii_guard.move_assign raii_guard.invoke false d s log).2.1
      (raii_guard.move_assign raii_guard.invoke false d s log).1 =
        (if s.active_ then
          (raii_guard.move_assign raii_guard.invoke false d s log).1 ++ [s.func_]
        else (raii_guard.move_assign raii_guard.invoke false d s log).1) ∧
    raii_guard.move_assign raii_guard.invoke true d d log = (log, d, d) := by
  have e : raii_guard.move_assign raii_guard.invoke false d s log =
      (raii_guard.destroy raii_guard.invoke d log, { func_ := s.func_, active_ := s.active_ },
        { s with active_ := false }) := by
    simp [raii_guard.move_assign, raii_guard.move]
  rw [e]
  refine ⟨?_, rfl, rfl, raii_guard.destroy_inactive _ _ rfl, ?_, ?_⟩
  · simp [raii_guard.destroy, raii_guard.invoke]
  · simp [raii_guard.destroy, raii_guard.invoke]
  · simp [raii_guard.move_assign]

end guard

section well_formed

/-- The constructors from a handle return the fields of the source. -/
theorem copy_result {m : Machine} {h : shared_ptr} {r : Machine × shared_ptr}
    (e : shared_ptr.copy m h = Except.ok r) : r.2 = { cb_ := h.cb_, ptr_ := h.ptr_ } := by
  unfold shared_ptr.copy at e
  dsimp only at e
  split at e
  · cases e
  · cases e
    rfl

theorem from_weak_result {m : Machine} {x : weak_ptr} {r : Machine × shared_ptr}
    (e : shared_ptr.from_weak m x = Except.ok r) : r.2 = { cb_ := x.cb_, ptr_ := x.ptr_ } := by
  unfold shared_ptr.from_weak at e
  dsimp only at e
  split at e
  · cases e
  · cases e
    rfl

theorem lock_result {m : Machine} {x : weak_ptr} {r : Machine × shared_ptr}
    (e : weak_ptr.lock m x = Except.ok r) :
    r.2 = { cb_ := x.cb_, ptr_ := x.ptr_ } ∨ r.2 = { cb_ := 0, ptr_ := 0 } := by
  rw [lock_eq] at e
  split at e
  · cases e
    exact Or.inl rfl
  · cases e
    exact Or.inr rfl

theorem reset_result (m : Machine) (h : shared_ptr) (hw : h.cb_ = 0 ↔ h.ptr_ = 0) :
    (shared_ptr.reset m h).2 = { cb_ := 0, ptr_ := 0 } := by
  unfold shared_ptr.reset
  by_cases hc : h.cb_ ≠ 0
  · simp [hc]
  · have h0 : h.cb_ = 0 := by
      by_contra hne
      exact hc hne
    have hp : h.ptr_ = 0 := hw.mp h0
    cases h
    simp only at h0 hp
    simp [h0, hp]

theorem weak_reset_result (m : Machine) (x : weak_ptr) (hw : x.cb_ = 0 ↔ x.ptr_ = 0) :
    (weak_ptr.reset m x).2 = { cb_ := 0, ptr_ := 0 } := by
  unfold weak_ptr.reset
  by_cases hc : x.cb_ ≠ 0
  · simp [hc]
  · have h0 : x.cb_ = 0 := by
      by_contra hne
      exact hc hne
    have hp : x.ptr_ = 0 := hw.mp h0
    cases x
    simp only at h0 hp
    simp [h0, hp]

/-- Well-formedness of all handle variables of a world. -/
theorem step_wf (w : World)
    (hS : ∀ h ∈ w.shared, (h.cb_ = 0 ↔ h.ptr_ = 0))
    (hW : ∀ x ∈ w.weak, (x.cb_ = 0 ↔ x.ptr_ = 0)) (op : Op) :
    (∀ h ∈ (step w op).shared, (h.cb_ = 0 ↔ h.ptr_ = 0)) ∧
    (∀ x ∈ (step w op).weak, (x.cb_ = 0 ↔ x.ptr_ = 0)) := by
  have hE : ((({ cb_ := 0, ptr_ := 0 } : shared_ptr).cb_ = 0) ↔
      (({ cb_ := 0, ptr_ := 0 } : shared_ptr).ptr_ = 0)) := Iff.rfl
  have hEw : ((({ cb_ := 0, ptr_ := 0 } : weak_ptr).cb_ = 0) ↔
      (({ cb_ := 0, ptr_ := 0 } : weak_ptr).ptr_ = 0)) := Iff.rfl
  cases op with
  | shared_copy i =>
    simp only [step]
    cases hi : w.shared[i]? with
    | none => exact ⟨hS, hW⟩
    | some h =>
      try dsimp only
      have hh := hS h (mem_of_getElem?_eq_some hi)
      cases hc : shared_ptr.copy w.m h with
      | error e =>
        try dsimp only
        exact ⟨hS, hW⟩
      | ok r =>
        try dsimp only
        refine ⟨shape_append hS ?_, hW⟩
        rw [copy_result hc]
        exact hh
  | shared_move i =>
    simp only [step]
    cases hi : w.shared[i]? with
    | none => exact ⟨hS, hW⟩
    | some h =>
      try dsimp only
      have hh := hS h (mem_of_getElem?_eq_some hi)
      exact ⟨shape_append (shape_set i hS hE) hh, hW⟩
  | shared_from_weak j =>
    simp only [step]
    cases hj : w.weak[j]? with
    | none => exact ⟨hS, hW⟩
    | some x =>
      try dsimp only
      have hx := hW x (mem_of_getElem?_eq_some hj)
      cases hc : shared_ptr.from_weak w.m x with
      | error e =>
        try dsimp only
        exact ⟨hS, hW⟩
      | ok r =>
        try dsimp only
        refine ⟨shape_append hS ?_, hW⟩
        rw [from_weak_result hc]
        exact hx
  | shared_assign i j =>
    simp only [step]
    cases hi : w.shared[i]? with
    | none => exact ⟨hS, hW⟩
    | some h =>
      try dsimp only
      cases hj : w.shared[j]? with
      | none => exact ⟨hS, hW⟩
      | some o =>
        try dsimp only
        have hh := hS h (mem_of_getElem?_eq_some hi)
        have ho := hS o (mem_of_getElem?_eq_some hj)
        by_cases hij : i = j
        · simp only [hij, if_true]
          exact ⟨hS, hW⟩
        · simp only [hij, if_false]
          cases hc : shared_ptr.copy (shared_ptr.destroy w.m h) o with
          | error e =>
            try dsimp only
            refine ⟨shape_set i hS ?_, hW⟩
            rw [reset_result w.m h hh]
          | ok r =>
            try dsimp only
            refine ⟨shape_set i hS ?_, hW⟩
            rw [copy_result hc]
            exact ho
  | shared_move_assign i j =>
    simp only [step]
    cases hi : w.shared[i]? with
    | none => exact ⟨hS, hW⟩
    | some h =>
      try dsimp only
      cases hj : w.shared[j]? with
      | none => exact ⟨hS, hW⟩
      | some o =>
        try dsimp only
        have ho := hS o (mem_of_getElem?_eq_some hj)
        by_cases hij : i = j
        · simp only [hij, if_true]
          exact ⟨hS, hW⟩
        · simp only [hij, if_false]
          exact ⟨shape_set j (shape_set i hS ho) hE, hW⟩
  | shared_reset i =>
    simp only [step]
    cases hi : w.shared[i]? with
    | none => exact ⟨hS, hW⟩
    | some h =>
      try dsimp only
      have hh := hS h (mem_of_getElem?_eq_some hi)
      refine ⟨shape_set i hS ?_, hW⟩
      rw [reset_result w.m h hh]
  | shared_destroy i =>
    simp only [step]
    cases hi : w.shared[i]? with
    | none => exact ⟨hS, hW⟩
    | some h =>
      try dsimp only
      exact ⟨shape_eraseIdx i hS, hW⟩
  | weak_from_shared i =>
    simp only [step]
    cases hi : w.shared[i]? with
    | none => exact ⟨hS, hW⟩
    | some h =>
      try dsimp only
      have hh := hS h (mem_of_getElem?_eq_some hi)
      refine ⟨hS, shape_append hW ?_⟩
      have e : (weak_ptr.from_shared w.m h).2 = { cb_ := h.cb_, ptr_ := h.ptr_ } := by
        unfold weak_ptr.from_shared
        dsimp only
        split <;> rfl
      rw [e]
      exact hh
  | weak_copy j =>
    simp only [step]
    cases hj : w.weak[j]? with
    | none => exact ⟨hS, hW⟩
    | some x =>
      try dsimp only
      have hx := hW x (mem_of_getElem?_eq_some hj)
      refine ⟨hS, shape_append hW ?_⟩
      have e : (weak_ptr.copy w.m x).2 = { cb_ := x.cb_, ptr_ := x.ptr_ } := by
        unfold weak_ptr.copy
        dsimp only
        split <;> rfl
      rw [e]
      exact hx
  | weak_move j =>
    simp only [step]
    cases hj : w.weak[j]? with
    | none => exact ⟨hS, hW⟩
    | some x =>
      try dsimp only
      have hx := hW x (mem_of_getElem?_eq_some hj)
      exact ⟨hS, shape_append (shape_set j hW hEw) hx⟩
  | weak_assign i j =>
    simp only [step]
    cases hi : w.weak[i]? with
    | none => exact ⟨hS, hW⟩
    | some x =>
      try dsimp only
      cases hj : w.weak[j]? with
      | none => exact ⟨hS, hW⟩
      | some o =>
        try dsimp only
        have ho := hW o (mem_of_getElem?_eq_some hj)
        by_cases hij : i = j
        · simp only [hij, if_true]
          exact ⟨hS, hW⟩
        · simp only [hij, if_false]
          refine ⟨hS, shape_set i hW ?_⟩
          have e : (weak_ptr.copy (weak_ptr.destroy w.m x) o).2 =
              { cb_ := o.cb_, ptr_ := o.ptr_ } := by
            unfold weak_ptr.copy
            dsimp only
            split <;> rfl
          rw [e]
          exact ho
  | weak_move_assign i j =>
    simp only [step]
    cases hi : w.weak[i]? with
    | none => exact ⟨hS, hW⟩
    | some x =>
      try dsimp only
      cases hj : w.weak[j]? with
      | none => exact ⟨hS, hW⟩
      | some o =>
        try dsimp only
        have ho := hW o (mem_of_getElem?_eq_some hj)
        by_cases hij : i = j
        · simp only [hij, if_true]
          exact ⟨hS, hW⟩
        · simp only [hij, if_false]
          exact ⟨hS, shape_set j (shape_set i hW ho) hEw⟩
  | weak_reset j =>
    simp only [step]
    cases hj : w.weak[j]? with
    | none => exact ⟨hS, hW⟩
    | some x =>
      try dsimp only
      have hx := hW x (mem_of_getElem?_eq_some hj)
      refine ⟨hS, shape_set j hW ?_⟩
      rw [weak_reset_result w.m x hx]
  | weak_destroy j =>
    simp only [step]
    cases hj : w.weak[j]? with
    | none => exact ⟨hS, hW⟩
    | some x =>
      try dsimp only
      exact ⟨hS, shape_eraseIdx j hW⟩
  | lock j =>
    simp only [step]
    cases hj : w.weak[j]? with
    | none => exact ⟨hS, hW⟩
    | some x =>
      try dsimp only
      have hx := hW x (mem_of_getElem?_eq_some hj)
      cases hc : weak_ptr.lock w.m x with
      | error e =>
        try dsimp only
        exact ⟨hS, hW⟩
      | ok r =>
        try dsimp only
        refine ⟨shape_append hS ?_, hW⟩
        rcases lock_result hc with e | e
        · rw [e]
          exact hx
        · rw [e]

/-- Every reachable world has well-formed handle variables only. -/
theorem reach_wf {w : World} (hr : World.Reach w) :
    (∀ h ∈ w.shared, (h.cb_ = 0 ↔ h.ptr_ = 0)) ∧ (∀ x ∈ w.weak, (x.cb_ = 0 ↔ x.ptr_ = 0)) := by
  induction hr with
  | start m =>
    exact ⟨fun h hh => by simp at hh, fun x hx => by simp at hx⟩
  | empty _ ih => exact ⟨shape_append ih.1 Iff.rfl, ih.2⟩
  | weak_empty _ ih => exact ⟨ih.1, shape_append ih.2 Iff.rfl⟩
  | adopt blk ptr hblk _ ih =>
    refine ⟨shape_append ih.1 ?_, ih.2⟩
    unfold shared_ptr.adopt
    by_cases hp : ptr ≠ 0
    · simp only [if_pos hp]
      exact ⟨fun h0 => absurd h0 hblk, fun h0 => absurd h0 hp⟩
    · simp only [if_neg hp]
      exact Iff.rfl
  | make pack h hnew _ hm ih =>
    refine ⟨shape_append ih.1 ?_, ih.2⟩
    cases pack with
    | empty =>
      simp only [make_shared, Except.ok.injEq] at hm
      subst hm
      exact Iff.rfl
    | pointer blk ptr =>
      have hblk : blk ≠ 0 := hnew blk ptr rfl
      simp only [make_shared, Except.ok.injEq] at hm
      subst hm
      unfold shared_ptr.adopt
      by_cases hp : ptr ≠ 0
      · simp only [if_pos hp]
        exact ⟨fun h0 => absurd h0 hblk, fun h0 => absurd h0 hp⟩
      · simp only [if_neg hp]
        exact Iff.rfl
    | values mem ctor_ok init =>
      unfold make_shared shared_ptr.emplace at hm
      by_cases hmem : mem = 0
      · simp [hmem] at hm
      · cases ctor_ok with
        | false => simp [hmem] at hm
        | true =>
          simp [hmem] at hm
          subst hm
          have hobj : control_block_impl.object mem ≠ 0 := by
            unfold control_block_impl.object
            omega
          exact ⟨fun h0 => absurd h0 hmem, fun h0 => absurd h0 hobj⟩
  | make_failed pack e _ _ ih => exact ih
  | op o _ ih => exact step_wf _ ih.1 ih.2 o

/-- C19: every shared handle variable of a world reached through default construction,
adoption, in-place construction and the handle operations (copy, move, construction
from a weak handle, `lock`, `reset`, destruction, copy and move assignment) has a null
pointer exactly when it has a null control block.  Hence the boolean test agrees with
`!= nullptr` and is the negation of `== nullptr`, the handle equals the empty handle
exactly when the boolean test is false, and `use_count()` is the `use_cnt_` of the
handle's block when the test is true and 0 otherwise. -/
theorem handle_well_formed (w : World) (hr : World.Reach w) :
    ∀ h ∈ w.shared,
      (h.ptr_ = 0 ↔ h.cb_ = 0) ∧
      shared_ptr.to_bool h = shared_ptr.ne_null h ∧
      shared_ptr.eq_null h = !shared_ptr.to_bool h ∧
      (shared_ptr.to_bool h = false ↔ h = shared_ptr.empty) ∧
      shared_ptr.use_count w.m h =
        (if shared_ptr.to_bool h then (w.m.cb h.cb_).use_cnt_ else 0) := by
  intro h hh
  have hw := (reach_wf hr).1 h hh
  have hb : shared_ptr.to_bool h = shared_ptr.ne_null h := by
    unfold shared_ptr.to_bool shared_ptr.ne_null shared_ptr.get
    by_cases hc : h.cb_ = 0
    · simp [hc, hw.mp hc]
    · have hp : h.ptr_ ≠ 0 := fun h0 => hc (hw.mpr h0)
      simp [hc, hp]
  refine ⟨hw.symm, hb, ?_, ?_, ?_⟩
  · rw [hb]
    rfl
  · unfold shared_ptr.to_bool shared_ptr.empty
    constructor
    · intro h0
      have hc : h.cb_ = 0 := by simpa using h0
      have hp : h.ptr_ = 0 := hw.mp hc
      cases h
      simp only at hc hp
      simp [hc, hp]
    · intro he
      simp [he]
  · unfold shared_ptr.use_count shared_ptr.to_bool control_block.use_count
    by_cases hc : h.cb_ = 0
    · simp [hc]
    · simp [hc]

/-- Witness for C19: after the handle constructed in place at 1000 was moved from, the
world holds the empty handle and the handle `{1000, 1024}`; for both the boolean test
agrees with `!= nullptr`. -/
theorem handle_well_formed_witness :
    (step World.sample (Op.shared_move 0)).shared =
      [{ cb_ := 0, ptr_ := 0 }, { cb_ := 1000, ptr_ := 1024 }] ∧
    ∀ h ∈ (step World.sample (Op.shared_move 0)).shared,
      shared_ptr.to_bool h = shared_ptr.ne_null h := by
  have hr : World.Reach (step World.sample (Op.shared_move 0)) :=
    World.Reach.op _ (World.Reach.make (Pack.values 1000 true Embedded.absent)
      { cb_ := 1000, ptr_ := 1024 } (fun _ _ hp => by cases hp)
      (World.Reach.start Machine.init) rfl)
  exact ⟨by decide, fun h hh => (handle_well_formed _ hr h hh).2.1⟩

end well_formed

end bull
